import Mathlib

/-!
Verification development for the leetspeak translator pipeline
(`src/translator.py` of the repository under study).

The Python code is shallowly embedded over `List Char`.  Python's `re`
substitutions are modelled by structurally recursive scanners that walk the
string left to right, exactly like `re.sub` / `re.finditer`: at each position
the (fixed, concrete) pattern is tried; on a match the replacement is emitted
and the matched characters are skipped (the `skip` counter), otherwise one
character is copied.  Character classes (`\w`, `\s`, `[0-9_]`, lower-casing)
are modelled at ASCII level, which is exact for every string manipulated here.
-/

namespace Leet

/-- Strings are modelled as lists of characters. -/
abbrev Str := List Char

/-- Python `str.lower()` restricted to ASCII (exact on the ASCII data in play). -/
def pyLower (c : Char) : Char := c.toLower

/-- Python whitespace for `str.strip()` and the regex class `\s`:
space, tab, newline, carriage return, vertical tab, form feed. -/
def pyIsSpace (c : Char) : Bool :=
  c == ' ' || c == '\t' || c == '\n' || c == '\r' || c == '\x0b' || c == '\x0c'

/-- The regex word class `\w` (ASCII): letters, digits, underscore. -/
def isWordChar (c : Char) : Bool := c.isAlphanum || c == '_'

/-- Case-insensitive character comparison (regex `re.IGNORECASE`). -/
def lowEq (a b : Char) : Bool := pyLower a == pyLower b

/-- `begWith w l`: `w` is a literal prefix of `l` (case-sensitive). -/
def begWith : Str → Str → Bool
  | [], _ => true
  | _ :: _, [] => false
  | a :: w, b :: l => a == b && begWith w l

/-- `caselessBeg w l`: `w` is a prefix of `l` up to ASCII case. -/
def caselessBeg : Str → Str → Bool
  | [], _ => true
  | _ :: _, [] => false
  | a :: w, b :: l => lowEq a b && caselessBeg w l

/-- `containsTok m l`: the literal token `m` occurs somewhere in `l`. -/
def containsTok (m : Str) : Str → Bool
  | [] => m.isEmpty
  | c :: r => begWith m (c :: r) || containsTok m r

/-! ## The substitution table and the codec (`Translator.__init__`,
`to_leetspeak`, `from_leetspeak`, `contains_leetspeak`) -/

/-- Modelled from the spec: the repository loads `translation_table.json`,
which is not among the sources.  Per the spec (§3, §6) the SubstitutionTable
maps a handful of lowercase source characters to leet strings; the code's own
comments on the extended reverse table (`o → 0`, `i → 1`, `e → 3`, `a → 4`,
`t → 7`, `space → underscore`) name the forward pairs, which we take as the
table, in that order. -/
def table : List (Char × Str) :=
  [('o', "0".data), ('i', "1".data), ('e', "3".data),
   ('a', "4".data), ('t', "7".data), (' ', "_".data)]

/-- `self.reverse_table = {v: k for k, v in self.table.items()}`:
leet string → original character (insertion order preserved). -/
def reverse_table : List (Str × Str) := table.map (fun p => (p.2, [p.1]))

/-- `self.extended_reverse`: the hard-coded extended reverse map, in dict
insertion order.  The source dict literal lists the key `'G'` twice with the
same value `'g'`; a Python dict keeps one entry at the first position. -/
def extended_reverse : List (Char × Char) :=
  [('0', 'o'), ('O', 'o'), ('1', 'i'), ('I', 'i'), ('3', 'e'), ('E', 'e'),
   ('4', 'a'), ('A', 'a'), ('7', 't'), ('T', 't'), ('_', ' '),
   ('5', 's'), ('S', 's'), ('6', 'g'), ('G', 'g'), ('8', 'b'), ('B', 'b'),
   ('9', 'g'), ('2', 'z'), ('Z', 'z')]

/-- `numeric_fixes` from `from_leetspeak`, in dict insertion order.  The
source dict literal repeats the keys `'ig'` and `'zg'`; Python keeps the
first position with the last value (`'ig' → '19'`, `'zg' → '29'`). -/
def numeric_fixes : List (Str × Str) :=
  [("io".data, "10".data), ("ii".data, "11".data), ("iz".data, "12".data),
   ("ie".data, "13".data), ("ia".data, "14".data), ("is".data, "15".data),
   ("ig".data, "19".data), ("it".data, "17".data), ("ib".data, "18".data),
   ("zo".data, "20".data), ("zi".data, "21".data), ("zz".data, "22".data),
   ("ze".data, "23".data), ("za".data, "24".data), ("zs".data, "25".data),
   ("zg".data, "29".data), ("zt".data, "27".data), ("zb".data, "28".data),
   ("eo".data, "30".data), ("ei".data, "31".data), ("ao".data, "40".data),
   ("sooo".data, "5000".data), ("iooo".data, "1000".data)]

/-- `self.character_names`. -/
def character_names : List Str :=
  ["HOUSE".data, "FOREMAN".data, "CAMERON".data, "WILSON".data,
   "CHASE".data, "CUDDY".data, "THIRTEEN".data, "TAUB".data]

/-- Table lookup used by `to_leetspeak`: `self.table[char]` if present else
the character itself. -/
def tableLookup (c : Char) : Str :=
  match table.find? (fun p => p.1 == c) with
  | some p => p.2
  | none => [c]

/-- `Translator.to_leetspeak`: lower-case the input, then map each character
through the table (absent characters pass through). -/
def to_leetspeak (l : Str) : Str := ((l.map pyLower).map tableLookup).flatten

/-- Python `str.replace(needle, repl)`: replace all non-overlapping
occurrences, scanning left to right.  `skip` counts characters of a previous
match still to be consumed. -/
def pyReplaceGo (needle repl : Str) : Nat → Str → Str
  | _, [] => []
  | s + 1, _ :: r => pyReplaceGo needle repl s r
  | 0, c :: r =>
    if 0 < needle.length && begWith needle (c :: r) then
      repl ++ pyReplaceGo needle repl (needle.length - 1) r
    else
      c :: pyReplaceGo needle repl 0 r

def pyReplace (needle repl l : Str) : Str := pyReplaceGo needle repl 0 l

/-- One `re.sub(r'\b<key>\b', value, ·)` pass of the numeric-fix loop.
`pw` is the word-character status of the previous character in the original
string (`false` at the start), which decides `\b` on the left; the `\b` on
the right compares the key's last character with the following one. -/
def wordHit (k : Str) (pw : Bool) (l : Str) : Bool :=
  0 < k.length && begWith k l && (pw != isWordChar (k.headD ' ')) &&
    (match l.drop k.length with
     | [] => isWordChar (k.getLastD ' ')
     | d :: _ => isWordChar (k.getLastD ' ') != isWordChar d)

def wordSubGo (k v : Str) : Bool → Nat → Str → Str
  | _, _, [] => []
  | _, s + 1, c :: r => wordSubGo k v (isWordChar c) s r
  | pw, 0, c :: r =>
    if wordHit k pw (c :: r) then
      v ++ wordSubGo k v (isWordChar c) (k.length - 1) r
    else
      c :: wordSubGo k v (isWordChar c) 0 r

def wordSub (k v l : Str) : Str := wordSubGo k v false 0 l

/-- `Translator.from_leetspeak`: empty check, then the reverse-table pass,
the extended pass and the word-boundary numeric pass, each a sequence of
replace-alls in table iteration order. -/
def from_leetspeak (l : Str) : Str :=
  if l = [] then []
  else
    let r1 := reverse_table.foldl (fun acc p => pyReplace p.1 p.2 acc) l
    let r2 := extended_reverse.foldl (fun acc p => pyReplace [p.1] [p.2] acc) r1
    numeric_fixes.foldl (fun acc p => wordSub p.1 p.2 acc) r2

/-- `Translator.contains_leetspeak`: `re.search(r'[0-9_]', text)`. -/
def contains_leetspeak (l : Str) : Bool := l.any (fun c => c.isDigit || c == '_')

/-- Characters on which the decode/encode round trip is the identity:
fixed by lower-casing, not a key of the table, not a digit or underscore
(the reverse/extended replacement keys), and not `z` (whose repetitions and
combinations trigger the word-boundary numeric fixes). -/
def allowedChar (c : Char) : Bool :=
  pyLower c == c && !(table.any (fun p => p.1 == c)) && !c.isDigit &&
    c != '_' && c != 'z'

/-- The characters that `from_leetspeak` is claimed never to output:
underscore and the uppercase letters O, I, E, A, T, S, G, B, Z. -/
def forbChar (c : Char) : Bool :=
  c == '_' || c == 'O' || c == 'I' || c == 'E' || c == 'A' || c == 'T' ||
    c == 'S' || c == 'G' || c == 'B' || c == 'Z'

/-- Word-character status of the previous character after consuming `chunk`,
starting from status `pw`. -/
def pwAfter (pw : Bool) : Str → Bool
  | [] => pw
  | c :: r => pwAfter (isWordChar c) r

/-! ## Python `str.strip()` -/

/-- Remove trailing Python whitespace (structural form of `rstrip`). -/
def dropTrailWs : Str → Str
  | [] => []
  | c :: r =>
    match dropTrailWs r with
    | [] => if pyIsSpace c then [] else [c]
    | r2 => c :: r2

/-- Python `str.strip()`. -/
def pyStrip (l : Str) : Str := dropTrailWs (l.dropWhile pyIsSpace)

/-! ## Markdown fence stripping

`re.sub(r'```(?:markdown)?|```', '', response)`: scanning left to right, at
each position the first alternative greedily takes ```` ```markdown ```` if
present, else ```` ``` ````; otherwise the character is kept. -/

def btChar : Char := "`".data.headD ' '
def fence3 : Str := [btChar, btChar, btChar]
def fenceMd : Str := [btChar, btChar, btChar] ++ "markdown".data

def stripFencesGo : Nat → Str → Str
  | _, [] => []
  | s + 1, _ :: r => stripFencesGo s r
  | 0, c :: r =>
    if begWith fenceMd (c :: r) then stripFencesGo (fenceMd.length - 1) r
    else if begWith fence3 (c :: r) then stripFencesGo (fence3.length - 1) r
    else c :: stripFencesGo 0 r

def stripFences (l : Str) : Str := stripFencesGo 0 l

/-! ## Index-based helpers for the `re.finditer`-style matchers

The extraction regexes are matched over a fixed string `cs` using positions;
`sAt` reads a character (the NUL default is never equal to any character the
patterns test for, so out-of-range reads simply fail to match). -/

def sAt (cs : Str) (i : Nat) : Char := cs.getD i '\x00'

/-- Length of the whitespace run starting at position `i` (`\s*` max-munch). -/
def wsRun (cs : Str) (i : Nat) : Nat := ((cs.drop i).takeWhile pyIsSpace).length

/-- Length of the word-character run starting at `i` (`\w*` max-munch). -/
def wordRun (cs : Str) (i : Nat) : Nat := ((cs.drop i).takeWhile isWordChar).length

/-- `w` matches case-insensitively at position `i`. -/
def caselessAt (cs : Str) (i : Nat) (w : Str) : Bool := caselessBeg w (cs.drop i)

/-- The substring `cs[a:b]`. -/
def subSlice (cs : Str) (a b : Nat) : Str := (cs.drop a).take (b - a)

/-! ## Strategy 1: House-dialogue extraction

`house_pattern = (?:^|\n)\s*(?:HOUSE|HoUse)(?:\s*:|\.)?(?:\s*\([^)]*\))?\s*`
`(.*?)(?=(?:^|\n)\s*(?:FOREMAN|CAMERON|WILSON|CHASE|CUDDY|$))` with
`DOTALL | MULTILINE | IGNORECASE`.  Under `IGNORECASE` the alternatives
`HOUSE|HoUse` coincide with a caseless match of `house`.  Backtracking is
realised by ordered candidate lists: alternation and greedy `\s*` prefer the
leftmost/longest choice, the lazy group prefers the smallest end position. -/

def house5 : Str := "house".data
def speakerNames : List Str :=
  ["FOREMAN".data, "CAMERON".data, "WILSON".data, "CHASE".data, "CUDDY".data]

def namesAt (cs : Str) (j : Nat) : Bool := speakerNames.any (fun n => caselessAt cs j n)

/-- Tail of the lookahead after its `(?:^|\n)` part, starting at `r`:
`\s*(?:FOREMAN|...|CUDDY|$)`.  The names (non-whitespace) can only follow the
maximal whitespace run; the MULTILINE `$` alternative succeeds at end of
string or before any `\n`, and `\s*` can stop at any newline inside the run. -/
def laTail (cs : Str) (r : Nat) : Bool :=
  let m := wsRun cs r
  namesAt cs (r + m) || (r + m == cs.length) || ((cs.drop r).take m).any (· == '\n')

/-- The lookahead `(?=(?:^|\n)\s*(?:FOREMAN|...|CUDDY|$))` holds at `q`
(`^` under MULTILINE: start of string or right after a newline). -/
def laAt (cs : Str) (q : Nat) : Bool :=
  ((q == 0 || sAt cs (q - 1) == '\n') && laTail cs q) ||
  (sAt cs q == '\n' && laTail cs (q + 1))

/-- Lazy `(.*?)` under DOTALL: the smallest `q ≥ g` whose lookahead holds. -/
def lazyQ (cs : Str) (g : Nat) : Option Nat :=
  (List.range (cs.length + 1)).find? (fun q => decide (g ≤ q) && laAt cs q)

/-- Candidates for the end of `(?:\s*:|\.)?` starting at `q2`, in
backtracking order: the `\s*:` branch, the `\.` branch, then skipping. -/
def colonCands (cs : Str) (q2 : Nat) : List Nat :=
  let a := q2 + wsRun cs q2
  (if sAt cs a == ':' then [a + 1] else []) ++
  (if sAt cs q2 == '.' then [q2 + 1] else []) ++ [q2]

/-- Candidates for the end of `(?:\s*\([^)]*\))?` starting at `q3`. -/
def parenCands (cs : Str) (q3 : Nat) : List Nat :=
  let a := q3 + wsRun cs q3
  (if sAt cs a == '(' then
     let k := ((cs.drop (a + 1)).takeWhile (fun c => c != ')')).length
     if sAt cs (a + 1 + k) == ')' then [a + 1 + k + 1] else []
   else []) ++ [q3]

/-- Candidates for the group start after the final greedy `\s*`, longest
consumption first. -/
def wsChoices (cs : Str) (q4 : Nat) : List Nat :=
  (List.range (wsRun cs q4 + 1)).reverse.map (fun k => q4 + k)

/-- Try the body of the house pattern with `(?:^|\n)` already matched,
continuing at `p0`.  The leading `\s*` is deterministic because `house`
starts with a non-whitespace character.  Returns `(group1 start, group1 end)`;
the overall match ends at the group end (the lookahead has width zero). -/
def houseTryFrom (cs : Str) (p0 : Nat) : Option (Nat × Nat) :=
  let q1 := p0 + wsRun cs p0
  if caselessAt cs q1 house5 then
    (colonCands cs (q1 + 5)).findSome? (fun q3 =>
      (parenCands cs q3).findSome? (fun q4 =>
        (wsChoices cs q4).findSome? (fun g =>
          (lazyQ cs g).map (fun q => (g, q)))))
  else none

/-- The house pattern matched at position `p`: `^` branch first (MULTILINE:
`p = 0` or after a newline), then the branch consuming a literal `\n`. -/
def houseMatchAt (cs : Str) (p : Nat) : Option (Nat × Nat) :=
  match (if p == 0 || sAt cs (p - 1) == '\n' then houseTryFrom cs p else none) with
  | some gq => some gq
  | none => if sAt cs p == '\n' then houseTryFrom cs (p + 1) else none

/-- Leftmost match at or after `pos`: `(match start, group start, group end)`. -/
def houseFind (cs : Str) (pos : Nat) : Option (Nat × Nat × Nat) :=
  (List.range (cs.length + 1)).findSome? (fun p =>
    if pos ≤ p then (houseMatchAt cs p).map (fun gq => (p, gq.1, gq.2)) else none)

/-- `finditer` loop: after a match the scan resumes at the match end (every
match consumes at least the five `house` characters, so the position grows;
the fuel `cs.length + 1` therefore never runs out before the scan ends). -/
def houseFindAllGo (cs : Str) (pos : Nat) : Nat → List (Nat × Nat)
  | 0 => []
  | fuel + 1 =>
    match houseFind cs pos with
    | none => []
    | some (p, g, q) => (g, q) :: houseFindAllGo cs (max (max q (p + 1)) (pos + 1)) fuel

def houseFindAll (cs : Str) : List (Nat × Nat) := houseFindAllGo cs 0 (cs.length + 1)

/-- A mark of the bullet character class `[•*-]`. -/
def isMark (c : Char) : Bool := c == '•' || c == '*' || c == '-'

/-- Existence of a match of the strategy-1 bullet pattern
`(?:^|\n)\s*[•*-]\s*(.*?)(?=(?:^|\n)\s*[•*-]|\Z)` (DOTALL, MULTILINE).
Its lazy group always succeeds via `\Z`, so a match exists iff some position
starts `(?:^|\n)\s*[•*-]`; the mark is not whitespace, so it can only follow
the maximal whitespace run. -/
def markCore (cs : Str) (j : Nat) : Bool := isMark (sAt cs (j + wsRun cs j))

def bulletish (cs : Str) : Bool :=
  (List.range (cs.length + 1)).any (fun i =>
    ((i == 0 || sAt cs (i - 1) == '\n') && markCore cs i) ||
    (sAt cs i == '\n' && markCore cs (i + 1)))

/-! ## `_extract_full_bullet_content`

Markers are matches of `(?:^|\n)\s*[•*-]\s+` (no MULTILINE: `^` is only the
absolute start).  Each bullet body runs from a marker's end to the next
marker's start (or the end of the text). -/

/-- A marker match starting at `p`: returns its end position. -/
def bmCore (cs : Str) (j : Nat) : Option Nat :=
  let a := j + wsRun cs j
  if isMark (sAt cs a) then
    let w := wsRun cs (a + 1)
    if 0 < w then some (a + 1 + w) else none
  else none

def bmAt (cs : Str) (p : Nat) : Option Nat :=
  match (if p == 0 then bmCore cs p else none) with
  | some e => some e
  | none => if sAt cs p == '\n' then bmCore cs (p + 1) else none

def bmFind (cs : Str) (pos : Nat) : Option (Nat × Nat) :=
  (List.range (cs.length + 1)).findSome? (fun p =>
    if pos ≤ p then (bmAt cs p).map (fun e => (p, e)) else none)

/-- `finditer` for the markers (each match is at least two characters long,
so the position grows and the fuel suffices). -/
def bulletMarkersGo (cs : Str) (pos : Nat) : Nat → List (Nat × Nat)
  | 0 => []
  | fuel + 1 =>
    match bmFind cs pos with
    | none => []
    | some (p, e) => (p, e) :: bulletMarkersGo cs (max e (pos + 1)) fuel

def bulletMarkers (cs : Str) : List (Nat × Nat) := bulletMarkersGo cs 0 (cs.length + 1)

/-- Bodies: from each marker's end to the next marker's start, stripped and
kept when non-empty. -/
def collectBullets (cs : Str) : List (Nat × Nat) → List Str
  | [] => []
  | (_, e) :: rest =>
    let stop := match rest with
      | [] => cs.length
      | (s2, _) :: _ => s2
    let content := pyStrip (subSlice cs e stop)
    (if content = [] then [] else [content]) ++ collectBullets cs rest

/-- `Translator._extract_full_bullet_content`: `none` when no markers are
found, and also `none` when every body strips to empty (the Python code
returns `None` in both branches). -/
def extract_full_bullet_content (cs : Str) : Option Str :=
  let bm := bulletMarkers cs
  if bm = [] then none
  else
    let pts := collectBullets cs bm
    if pts = [] then none else some (List.intercalate "\n\n".data pts)

/-! ## Strategies 1-4 as optional results -/

/-- Strategy 1 (House dialogue, with the bullet sub-case). -/
def strategy1 (cs : Str) : Option Str :=
  let dialogues := (houseFindAll cs).filterMap (fun gq =>
    let d := pyStrip (subSlice cs gq.1 gq.2)
    if d ≠ [] ∧ contains_leetspeak d then some d else none)
  if dialogues = [] then none
  else
    let combined := List.intercalate ['\n'] dialogues
    if bulletish combined then
      match extract_full_bullet_content combined with
      | some fc => some fc
      | none => some combined
    else some combined

/-- Strategy 2: `'•' in response or '*' in response or '-' in response`,
then the full bullet extraction (returned only when truthy, i.e. `some`). -/
def strategy2 (cs : Str) : Option Str :=
  if cs.any (· == '•') || cs.any (· == '*') || cs.any (· == '-') then
    extract_full_bullet_content cs
  else none

/-- Bodies of `re.findall(r'```(?:\w+)?\n?(.*?)```', response, re.DOTALL)`.
The optional `\w+` and `\n` are taken greedily and the lazy body ends at the
nearest closing fence (the backtracking alternatives never matter because
strategy 3 only ever runs on fence-free text, see `extract_noStrategy3`). -/
def codeBlocksGo (cs : Str) (pos : Nat) : Nat → List Str
  | 0 => []
  | fuel + 1 =>
    match (List.range (cs.length + 1)).findSome? (fun p =>
        if pos ≤ p && begWith fence3 (cs.drop p) then
          let j := p + 3 + wordRun cs (p + 3)
          let j2 := j + (if sAt cs j == '\n' then 1 else 0)
          ((List.range (cs.length + 1)).find? (fun q =>
              decide (j2 ≤ q) && begWith fence3 (cs.drop q))).map
            (fun q => (j2, q))
        else none) with
    | none => []
    | some (j2, q) => subSlice cs j2 q :: codeBlocksGo cs (max (q + 3) (pos + 1)) fuel

def codeBlocks (cs : Str) : List Str := codeBlocksGo cs 0 (cs.length + 1)

/-- Strategy 3: code blocks filtered by `contains_leetspeak`; the function
falls through when the filtered list is empty. -/
def strategy3 (cs : Str) : Option Str :=
  let cbs := codeBlocks cs
  if cbs = [] then none
  else
    let cc := cbs.filter contains_leetspeak
    if cc = [] then none else some (List.intercalate "\n\n".data cc)

/-- Index (from the start of `w`) of the last `'\n'` inside `w`, if any. -/
def lastNl (w : Str) : Option Nat :=
  (List.range w.length).reverse.find? (fun k => w.getD k ' ' == '\n')

/-- `re.split(r'\n\s*\n', response)`: a separator starts at a newline and
greedily extends through the whitespace run to the last newline inside it. -/
def splitParasGo (cur : Str) : Nat → Str → List Str
  | _, [] => [cur.reverse]
  | s + 1, _ :: t => splitParasGo cur s t
  | 0, c :: t =>
    if c == '\n' then
      match lastNl (t.takeWhile pyIsSpace) with
      | some k => cur.reverse :: splitParasGo [] (k + 1) t
      | none => splitParasGo ('\n' :: cur) 0 t
    else splitParasGo (c :: cur) 0 t

def splitParas (cs : Str) : List Str := splitParasGo [] 0 cs

/-- Strategy 4: paragraphs containing leetspeak, joined by a blank line. -/
def strategy4 (cs : Str) : Option Str :=
  let lp := (splitParas cs).filter contains_leetspeak
  if lp = [] then none else some (List.intercalate "\n\n".data lp)

/-- `Translator.extract_leetspeak`: the empty check on the raw response,
fence stripping, then the first applicable strategy, with the (fence
stripped) response itself as strategy 5. -/
def extract_leetspeak (resp : Str) : Str :=
  if resp = [] ∨ pyStrip resp = [] then []
  else
    let s := stripFences resp
    match strategy1 s with
    | some t => t
    | none =>
      match strategy2 s with
      | some t => t
      | none =>
        match strategy3 s with
        | some t => t
        | none =>
          match strategy4 s with
          | some t => t
          | none => s

/-- The same strategy cascade with Strategy 3 deleted — the comparison
definition for the refinement claim that the code-block strategy is dead. -/
def extract_noStrategy3 (resp : Str) : Str :=
  if resp = [] ∨ pyStrip resp = [] then []
  else
    let s := stripFences resp
    match strategy1 s with
    | some t => t
    | none =>
      match strategy2 s with
      | some t => t
      | none =>
        match strategy4 s with
        | some t => t
        | none => s

/-! ## Cleaning passes of `process_response` and helpers -/

def h0use5 : Str := "h0use".data

/-- `re.sub(r'(?:HOUSE|HoUse|H0use)\s*\([^)]*\)', '', ·, re.IGNORECASE)`:
under IGNORECASE the three name alternatives reduce to caseless `house` or
caseless `h0use` (mutually exclusive at any position).  Returns the length
of the `\s*\([^)]*\)` part after the five name characters, if it matches. -/
def parenSuffix (l : Str) : Option Nat :=
  let w := (l.takeWhile pyIsSpace).length
  match l.drop w with
  | '(' :: rest =>
    let k := (rest.takeWhile (fun c => c != ')')).length
    if rest.getD k ' ' == ')' then some (w + 1 + k + 1) else none
  | _ => none

def hpMatchLen (l : Str) : Option Nat :=
  if caselessBeg house5 l || caselessBeg h0use5 l then parenSuffix (l.drop 5)
  else none

def hpSubGo : Nat → Str → Str
  | _, [] => []
  | s + 1, _ :: r => hpSubGo s r
  | 0, c :: r =>
    match hpMatchLen (c :: r) with
    | some m => hpSubGo (m + 5 - 1) r
    | none => c :: hpSubGo 0 r

def hpSub (l : Str) : Str := hpSubGo 0 l

/-- Length of `\s*(?::)?\s*` taken greedily from the start of `l`. -/
def colonWsLen (l : Str) : Nat :=
  let w1 := (l.takeWhile pyIsSpace).length
  let c1 := if l.getD w1 ' ' == ':' then 1 else 0
  w1 + c1 + ((l.drop (w1 + c1)).takeWhile pyIsSpace).length

/-- `re.sub(r'^(?:HOUSE|HoUse|H0use)\s*(?::)?\s*', '', ·, MULTILINE|IGNORECASE)`:
the boolean state tracks whether the scan is at a line start (position 0 or
just after a newline in the original string). -/
def hlpMatchLen (l : Str) : Option Nat :=
  if caselessBeg house5 l || caselessBeg h0use5 l then some (5 + colonWsLen (l.drop 5))
  else none

def hlpSubGo : Bool → Nat → Str → Str
  | _, _, [] => []
  | _, s + 1, c :: r => hlpSubGo (c == '\n') s r
  | ls, 0, c :: r =>
    if ls then
      match hlpMatchLen (c :: r) with
      | some m => hlpSubGo (c == '\n') (m - 1) r
      | none => c :: hlpSubGo (c == '\n') 0 r
    else c :: hlpSubGo (c == '\n') 0 r

def hlpSub (l : Str) : Str := hlpSubGo true 0 l

/-- `re.sub(r'\([^)]*\)', '', ·)`: a parenthesis opens a match only when a
closing parenthesis follows (unbalanced ones are kept). -/
def parenSubGo : Nat → Str → Str
  | _, [] => []
  | s + 1, _ :: r => parenSubGo s r
  | 0, c :: r =>
    if c == '(' then
      let k := (r.takeWhile (fun x => x != ')')).length
      if r.getD k ' ' == ')' then parenSubGo (k + 1) r else c :: parenSubGo 0 r
    else c :: parenSubGo 0 r

def parenSub (l : Str) : Str := parenSubGo 0 l

/-- `re.sub(r'\[[^\]]*\]', '', ·)`. -/
def bracketSubGo : Nat → Str → Str
  | _, [] => []
  | s + 1, _ :: r => bracketSubGo s r
  | 0, c :: r =>
    if c == '[' then
      let k := (r.takeWhile (fun x => x != ']')).length
      if r.getD k ' ' == ']' then bracketSubGo (k + 1) r else c :: bracketSubGo 0 r
    else c :: bracketSubGo 0 r

def bracketSub (l : Str) : Str := bracketSubGo 0 l

/-- `re.sub(r'\n{3,}', '\n\n', ·)`: each maximal run of at least three
newlines collapses to exactly two. -/
def collapseNlGo : Nat → Str → Str
  | _, [] => []
  | s + 1, _ :: r => collapseNlGo s r
  | 0, c :: r =>
    if c == '\n' then
      let k := (r.takeWhile (· == '\n')).length
      if 2 ≤ k then '\n' :: '\n' :: collapseNlGo k r
      else c :: collapseNlGo 0 r
    else c :: collapseNlGo 0 r

def collapseNl (l : Str) : Str := collapseNlGo 0 l

def sceneStart : Str := "[SCENE START]".data
def sceneEnd : Str := "[SCENE END]".data

/-- `re.sub(r'\[SCENE (?:START|END)\]', '', ·)` (case-sensitive). -/
def sceneSubGo : Nat → Str → Str
  | _, [] => []
  | s + 1, _ :: r => sceneSubGo s r
  | 0, c :: r =>
    if begWith sceneStart (c :: r) then sceneSubGo (sceneStart.length - 1) r
    else if begWith sceneEnd (c :: r) then sceneSubGo (sceneEnd.length - 1) r
    else c :: sceneSubGo 0 r

def sceneSub (l : Str) : Str := sceneSubGo 0 l

/-- `Translator.clean_stage_directions`. -/
def clean_stage_directions (l : Str) : Str := collapseNl (bracketSub (parenSub l))

/-! ## `normalize_character_names`

For each name, `re.sub` of `\b[hH][oO]...\b` (case classes, IGNORECASE):
a caseless occurrence of the name delimited by `\b` on both sides is replaced
by the canonical form.  `pw` is the word-character status of the previous
original character. -/

def nameHit (n : Str) (pw : Bool) (l : Str) : Bool :=
  match l with
  | [] => false
  | c :: _ =>
    0 < n.length && caselessBeg n l && (pw != isWordChar c) &&
      (match l.drop n.length with
       | [] => isWordChar (n.getLastD ' ')
       | d :: _ => isWordChar (n.getLastD ' ') != isWordChar d)

def nameGo (n : Str) : Bool → Nat → Str → Str
  | _, s + 1, c :: r => nameGo n (isWordChar c) s r
  | _, _, [] => []
  | pw, 0, c :: r =>
    if nameHit n pw (c :: r) then n ++ nameGo n (isWordChar c) (n.length - 1) r
    else c :: nameGo n (isWordChar c) 0 r

def normalize_character_names (l : Str) : Str :=
  character_names.foldl (fun t n => nameGo n false 0 t) l

/-- The post-decode cleaning transform of `process_response`: character-name
normalization, residual backtick stripping, scene-marker removal, newline
collapsing, and trimming. -/
def post_decode_clean (l : Str) : Str :=
  pyStrip (collapseNl (sceneSub (stripFences (normalize_character_names l))))

/-- `Translator.process_response`. -/
def process_response (resp : Str) : Str :=
  let extracted := extract_leetspeak resp
  let cleaned := hlpSub (hpSub extracted)
  let cleaned2 := clean_stage_directions cleaned
  post_decode_clean (from_leetspeak cleaned2)

/-! # Character-level facts (ASCII case analysis) -/

theorem char_eq_iff_toNat {a b : Char} : a = b ↔ a.toNat = b.toNat := by
  constructor
  · intro h; rw [h]
  · intro h
    apply Char.ext
    apply UInt32.ext
    exact h

theorem isUpper_iff {c : Char} : c.isUpper = true ↔ (65 ≤ c.toNat ∧ c.toNat ≤ 90) := by
  simp [Char.isUpper, Char.toNat, UInt32.le_def, BitVec.le_def]
  rfl

theorem isLower_iff {c : Char} : c.isLower = true ↔ (97 ≤ c.toNat ∧ c.toNat ≤ 122) := by
  simp [Char.isLower, Char.toNat, UInt32.le_def, BitVec.le_def]
  rfl

theorem isDigit_iff {c : Char} : c.isDigit = true ↔ (48 ≤ c.toNat ∧ c.toNat ≤ 57) := by
  simp [Char.isDigit, Char.toNat, UInt32.le_def, BitVec.le_def]
  rfl

theorem isWordChar_iff {c : Char} : isWordChar c = true ↔
    (65 ≤ c.toNat ∧ c.toNat ≤ 90) ∨ (97 ≤ c.toNat ∧ c.toNat ≤ 122) ∨
    (48 ≤ c.toNat ∧ c.toNat ≤ 57) ∨ c.toNat = 95 := by
  have h95 : ('_' : Char).toNat = 95 := rfl
  simp only [isWordChar, Char.isAlphanum, Char.isAlpha, Bool.or_eq_true, isUpper_iff,
    isLower_iff, isDigit_iff, beq_iff_eq, char_eq_iff_toNat, h95]
  tauto

theorem pyIsSpace_iff {c : Char} : pyIsSpace c = true ↔
    c.toNat = 32 ∨ c.toNat = 9 ∨ c.toNat = 10 ∨ c.toNat = 13 ∨ c.toNat = 11 ∨ c.toNat = 12 := by
  have e1 : (' ' : Char).toNat = 32 := rfl
  have e2 : ('\t' : Char).toNat = 9 := rfl
  have e3 : ('\n' : Char).toNat = 10 := rfl
  have e4 : ('\r' : Char).toNat = 13 := rfl
  have e5 : ('\x0b' : Char).toNat = 11 := rfl
  have e6 : ('\x0c' : Char).toNat = 12 := rfl
  simp only [pyIsSpace, Bool.or_eq_true, beq_iff_eq, char_eq_iff_toNat, e1, e2, e3, e4, e5, e6]
  tauto

theorem toNat_pyLower (c : Char) :
    (pyLower c).toNat = if 65 ≤ c.toNat ∧ c.toNat ≤ 90 then c.toNat + 32 else c.toNat := by
  unfold pyLower Char.toLower
  split
  · next h =>
      rw [if_pos (by omega)]
      have hv : Nat.isValidChar (c.toNat + 32) := Or.inl (by omega)
      simp [Char.ofNat, hv]
      rfl
  · next h => rw [if_neg (by omega)]

theorem isWordChar_of_lowEq {a b : Char} (h : pyLower a = pyLower b) :
    isWordChar a = isWordChar b := by
  have ha := toNat_pyLower a
  have hb := toNat_pyLower b
  have h2 : (pyLower a).toNat = (pyLower b).toNat := by rw [h]
  by_cases h1 : isWordChar a = true <;> by_cases h3 : isWordChar b = true
  · rw [h1, h3]
  · exfalso
    simp only [isWordChar_iff] at h1 h3
    split at ha <;> split at hb <;> omega
  · exfalso
    simp only [isWordChar_iff] at h1 h3
    split at ha <;> split at hb <;> omega
  · simp only [Bool.not_eq_true] at h1 h3; rw [h1, h3]

theorem pyIsSpace_of_lowEq {a b : Char} (h : pyLower a = pyLower b) :
    pyIsSpace a = pyIsSpace b := by
  have ha := toNat_pyLower a
  have hb := toNat_pyLower b
  have h2 : (pyLower a).toNat = (pyLower b).toNat := by rw [h]
  by_cases h1 : pyIsSpace a = true <;> by_cases h3 : pyIsSpace b = true
  · rw [h1, h3]
  · exfalso
    simp only [pyIsSpace_iff] at h1 h3
    split at ha <;> split at hb <;> omega
  · exfalso
    simp only [pyIsSpace_iff] at h1 h3
    split at ha <;> split at hb <;> omega
  · simp only [Bool.not_eq_true] at h1 h3; rw [h1, h3]

/-- If `b` is no letter, any character with the same lower case is `b` itself. -/
theorem eq_of_pyLower_eq {a b : Char} (h : pyLower a = pyLower b)
    (hb1 : ¬ (97 ≤ b.toNat ∧ b.toNat ≤ 122)) (hb2 : ¬ (65 ≤ b.toNat ∧ b.toNat ≤ 90)) :
    a = b := by
  have ha := toNat_pyLower a
  have hbn := toNat_pyLower b
  have h2 : (pyLower a).toNat = (pyLower b).toNat := by rw [h]
  rw [char_eq_iff_toNat]
  split at ha <;> split at hbn <;> omega

/-! # Toolbox on `begWith`, `caselessBeg` and `containsTok` -/

theorem begWith_le_length {m l : Str} (h : begWith m l = true) : m.length ≤ l.length := by
  induction m generalizing l with
  | nil => simp
  | cons a w ih =>
    cases l with
    | nil => simp [begWith] at h
    | cons b r =>
      simp only [begWith, Bool.and_eq_true] at h
      simpa [List.length_cons] using Nat.succ_le_succ (ih h.2)

theorem caselessBeg_le_length {m l : Str} (h : caselessBeg m l = true) : m.length ≤ l.length := by
  induction m generalizing l with
  | nil => simp
  | cons a w ih =>
    cases l with
    | nil => simp [caselessBeg] at h
    | cons b r =>
      simp only [caselessBeg, Bool.and_eq_true] at h
      simpa [List.length_cons] using Nat.succ_le_succ (ih h.2)

theorem begWith_append_of {m s : Str} (z : Str) (h : begWith m s = true) :
    begWith m (s ++ z) = true := by
  induction m generalizing s with
  | nil => simp [begWith]
  | cons a w ih =>
    cases s with
    | nil => simp [begWith] at h
    | cons b r =>
      simp only [begWith, Bool.and_eq_true] at h ⊢
      exact ⟨h.1, ih h.2⟩

theorem begWith_mem {m l : Str} (h : begWith m l = true) : ∀ c ∈ m, c ∈ l := by
  induction m generalizing l with
  | nil => simp
  | cons a w ih =>
    cases l with
    | nil => simp [begWith] at h
    | cons b r =>
      simp only [begWith, Bool.and_eq_true, beq_iff_eq] at h
      intro c hc
      rcases List.mem_cons.mp hc with hc | hc
      · simp [hc, h.1]
      · exact List.mem_cons_of_mem _ (ih h.2 c hc)

theorem containsTok_of_begWith {m l : Str} (h : begWith m l = true) :
    containsTok m l = true := by
  cases l with
  | nil =>
    cases m with
    | nil => rfl
    | cons a w => simp [begWith] at h
  | cons c r => simp [containsTok, h]

theorem containsTok_append_right {m z : Str} (w : Str) (h : containsTok m z = true) :
    containsTok m (w ++ z) = true := by
  induction w with
  | nil => simpa
  | cons c r ih =>
    simp only [List.cons_append, containsTok, Bool.or_eq_true]
    exact Or.inr ih

theorem containsTok_append_left {m s : Str} (z : Str) (h : containsTok m s = true) :
    containsTok m (s ++ z) = true := by
  induction s with
  | nil =>
    cases m with
    | nil => simpa [containsTok] using containsTok_of_begWith (by simp [begWith])
    | cons a w => simp [containsTok] at h
  | cons c r ih =>
    simp only [containsTok, Bool.or_eq_true] at h
    simp only [List.cons_append, containsTok, Bool.or_eq_true]
    rcases h with h | h
    · exact Or.inl (begWith_append_of z h)
    · exact Or.inr (ih h)

theorem containsTok_chars {m l : Str} (h : containsTok m l = true) : ∀ c ∈ m, c ∈ l := by
  induction l with
  | nil =>
    cases m with
    | nil => simp
    | cons a w => simp [containsTok] at h
  | cons c r ih =>
    simp only [containsTok, Bool.or_eq_true] at h
    intro x hx
    rcases h with h | h
    · exact begWith_mem h x hx
    · exact List.mem_cons_of_mem _ (ih h x hx)

theorem containsTok_of_drop {m l : Str} (p : Nat) (h : begWith m (l.drop p) = true) :
    containsTok m l = true := by
  induction l generalizing p with
  | nil =>
    simp only [List.drop_nil] at h
    exact containsTok_of_begWith h
  | cons c r ih =>
    cases p with
    | zero => exact containsTok_of_begWith h
    | succ p =>
      simp only [List.drop_succ_cons] at h
      simp only [containsTok, Bool.or_eq_true]
      exact Or.inr (ih p h)

/-! # Claim C9: `contains_leetspeak` -/

/-- C9 (confirmed): for every string, `contains_leetspeak` returns true iff
the string contains an ASCII digit or an underscore. -/
theorem C9_contains_leetspeak_iff (l : Str) :
    contains_leetspeak l = true ↔ ∃ c ∈ l, c.isDigit = true ∨ c = '_' := by
  simp [contains_leetspeak, List.any_eq_true]

/-! # Claim C8: the full-bullet sub-algorithm's two outcomes -/

/-- C8 (counterexample): the value for a text with no bullet markers (`"xy"`)
and the value for a text whose only marker is followed by an empty body
(`"* "`) are both `none` — not distinct. -/
theorem C8_counterexample :
    extract_full_bullet_content ("xy".data) = none ∧
    extract_full_bullet_content ("* ".data) = none ∧
    bulletMarkers ("* ".data) ≠ [] := by
  refine ⟨by decide, by decide, by decide⟩

/-- C8 (amended): `_extract_full_bullet_content` returns `None` when the text
has no bullet markers, and equally returns `None` when markers exist but all
bullet bodies strip to empty; the two outcomes coincide. -/
theorem C8_both_none (l : Str) :
    (bulletMarkers l = [] → extract_full_bullet_content l = none) ∧
    (collectBullets l (bulletMarkers l) = [] → extract_full_bullet_content l = none) := by
  constructor
  · intro h
    simp [extract_full_bullet_content, h]
  · intro h
    unfold extract_full_bullet_content
    by_cases hb : bulletMarkers l = []
    · simp [hb]
    · simp [hb, h]

/-- Witness for C8: the amended statement applied at concrete inputs. -/
theorem C8_both_none_witness :
    extract_full_bullet_content ("xy".data) = none ∧
    extract_full_bullet_content ("* ".data) = none :=
  ⟨(C8_both_none ("xy".data)).1 (by decide), (C8_both_none ("* ".data)).2 (by decide)⟩

/-! # Claim C5: empty and whitespace-only inputs -/

/-- C5 (counterexample): for the input `"``` "` — which consists only of
whitespace after the code-fence delimiters are stripped — `extract_leetspeak`
returns the fence-stripped response `" "`, not the empty string. -/
theorem C5_counterexample :
    stripFences ("``` ".data) = (" ".data) ∧
    (" ".data).all pyIsSpace = true ∧
    extract_leetspeak ("``` ".data) = (" ".data) ∧
    (" ".data) ≠ ([] : Str) := by
  refine ⟨by decide, by decide, by decide, by decide⟩

/-- C5 (amended): for every input that is empty or consists only of
whitespace, `extract_leetspeak` returns the empty string (the emptiness test
runs on the raw response, before fence stripping). -/
theorem C5_empty_input (l : Str) (h : l.all pyIsSpace = true) :
    extract_leetspeak l = [] := by
  cases l with
  | nil => rfl
  | cons c r =>
    have hdrop : (c :: r).dropWhile pyIsSpace = [] := by
      rw [List.dropWhile_eq_nil_iff]
      intro x hx
      exact (List.all_eq_true.mp h) x hx
    have hstrip : pyStrip (c :: r) = [] := by
      simp [pyStrip, hdrop, dropTrailWs]
    unfold extract_leetspeak
    rw [if_pos (Or.inr hstrip)]

/-- Witness for C5: the amended statement applied at a concrete input. -/
theorem C5_empty_input_witness : extract_leetspeak (" \t\n".data) = [] :=
  C5_empty_input (" \t\n".data) (by decide)

/-! # Claim C2: the full pipeline scenario -/

/-- C2 (counterexample): the pipeline does not return
`"The answer is apple and orange."` on the spec's scenario input. -/
theorem C2_counterexample :
    process_response ("HOUSE: The answer is 4pple and 0range. [SCENE END]".data) ≠
      ("The answer is apple and orange.".data) := by
  decide

/-- C2 (amended): on the scenario input the House-dialogue strategy finds no
match (its lookahead needs a following speaker label or a line end that the
input lacks), the leet-paragraph strategy returns the whole response, the
cleaners strip `HOUSE:` and `[SCENE END]`, the decode passes map `4→a`,
`0→o` — but the extended pass also lower-cases the initial `T` and the
numeric pass rewrites the word `is` to `15`, so the result is
`"the answer 15 apple and orange."`. -/
theorem C2_pipeline_result :
    process_response ("HOUSE: The answer is 4pple and 0range. [SCENE END]".data) =
      ("the answer 15 apple and orange.".data) := by
  decide

/-! # Claim C3: bullet extraction scenario -/

/-- C3 (counterexample): extraction does not return the two bullet bodies
`"f00"` and `"b4r"` joined by a blank line. -/
theorem C3_counterexample :
    extract_leetspeak ("HOUSE: * f00 \n* b4r".data) ≠ ("f00\n\nb4r".data) := by
  decide

/-- C3 (amended): extraction returns only `"b4r"`.  The House-dialogue
strategy finds nothing (no following speaker label or terminating line), and
in the whole-response bullet scan the first `*` follows `"HOUSE: "` on the
same line, so it is not a line-start marker; only the second bullet is
collected. -/
theorem C3_bullet_result :
    extract_leetspeak ("HOUSE: * f00 \n* b4r".data) = ("b4r".data) := by
  decide

/-! # No-occurrence and membership lemmas for the replacement passes -/

theorem pyReplaceGo_noOcc {needle : Str} (repl : Str) :
    ∀ l : Str, containsTok needle l = false → pyReplaceGo needle repl 0 l = l := by
  intro l
  induction l with
  | nil => intro _; rfl
  | cons c r ih =>
    intro h
    simp only [containsTok, Bool.or_eq_false_iff] at h
    unfold pyReplaceGo
    rw [h.1, Bool.and_false, if_neg (by simp)]
    rw [ih h.2]

theorem wordSubGo_noOcc {k : Str} (v : Str) :
    ∀ (l : Str) (pw : Bool), containsTok k l = false → wordSubGo k v pw 0 l = l := by
  intro l
  induction l with
  | nil => intro _ _; rfl
  | cons c r ih =>
    intro pw h
    simp only [containsTok, Bool.or_eq_false_iff] at h
    have hhit : wordHit k pw (c :: r) = false := by
      unfold wordHit
      rw [h.1]
      simp
    unfold wordSubGo
    rw [hhit, if_neg (by simp)]
    rw [ih _ h.2]

theorem foldRep_noOcc (L : List (Str × Str)) (l : Str)
    (h : ∀ p ∈ L, containsTok p.1 l = false) :
    L.foldl (fun acc p => pyReplace p.1 p.2 acc) l = l := by
  induction L with
  | nil => rfl
  | cons p L' ih =>
    have h0 : pyReplace p.1 p.2 l = l := pyReplaceGo_noOcc _ _ (h p (List.mem_cons_self p L'))
    simp only [List.foldl_cons, h0]
    exact ih (fun q hq => h q (List.mem_cons_of_mem _ hq))

theorem foldExt_noOcc (L : List (Char × Char)) (l : Str)
    (h : ∀ p ∈ L, containsTok [p.1] l = false) :
    L.foldl (fun acc p => pyReplace [p.1] [p.2] acc) l = l := by
  induction L with
  | nil => rfl
  | cons p L' ih =>
    have h0 : pyReplace [p.1] [p.2] l = l := pyReplaceGo_noOcc _ _ (h p (List.mem_cons_self p L'))
    simp only [List.foldl_cons, h0]
    exact ih (fun q hq => h q (List.mem_cons_of_mem _ hq))

theorem foldWord_noOcc (L : List (Str × Str)) (l : Str)
    (h : ∀ p ∈ L, containsTok p.1 l = false) :
    L.foldl (fun acc p => wordSub p.1 p.2 acc) l = l := by
  induction L with
  | nil => rfl
  | cons p L' ih =>
    have h0 : wordSub p.1 p.2 l = l := wordSubGo_noOcc _ _ _ (h p (List.mem_cons_self p L'))
    simp only [List.foldl_cons, h0]
    exact ih (fun q hq => h q (List.mem_cons_of_mem _ hq))

/-- If some character of the key is not allowed (and hence absent from an
all-allowed string), the key cannot occur in that string. -/
theorem KillKey {l : Str} (hAll : ∀ c ∈ l, allowedChar c = true)
    (e : Char) {k : Str} (he : e ∈ k) (hbad : allowedChar e = false) :
    containsTok k l = false := by
  by_contra h
  rw [Bool.not_eq_false] at h
  have : e ∈ l := containsTok_chars h e he
  rw [hAll e this] at hbad
  exact Bool.noConfusion hbad

theorem KillChar {l : Str} (hAll : ∀ c ∈ l, allowedChar c = true)
    (d : Char) (hbad : allowedChar d = false) :
    containsTok [d] l = false :=
  KillKey hAll d (List.mem_singleton_self d) hbad

theorem flatten_map_singleton (l : Str) : (l.map fun c => [c]).flatten = l := by
  induction l with
  | nil => rfl
  | cons c r ih => simp [ih]

theorem to_leetspeak_id (l : Str) (hAll : ∀ c ∈ l, allowedChar c = true) :
    to_leetspeak l = l := by
  have hlow : l.map pyLower = l := by
    have : ∀ c ∈ l, pyLower c = c := by
      intro c hc
      have := hAll c hc
      simp only [allowedChar, Bool.and_eq_true, beq_iff_eq] at this
      exact this.1.1.1.1
    calc l.map pyLower = l.map id := List.map_congr_left this
    _ = l := List.map_id l
  have hlook : ∀ c ∈ l, tableLookup c = [c] := by
    intro c hc
    have := hAll c hc
    simp only [allowedChar, Bool.and_eq_true, Bool.not_eq_true'] at this
    have hfind : table.find? (fun p => p.1 == c) = none := by
      rw [List.find?_eq_none]
      intro p hp
      have := List.any_eq_false.mp this.1.1.1.2 p hp
      simpa using this
    simp [tableLookup, hfind]
  unfold to_leetspeak
  rw [hlow]
  calc (l.map tableLookup).flatten = (l.map fun c => [c]).flatten := by
        rw [List.map_congr_left hlook]
  _ = l := flatten_map_singleton l

/-! # Claim C1: the round trip -/

/-- C1 (counterexample): `'Q'` is not a key of the SubstitutionTable (keys
are lowercase), yet the round trip returns `"q"`, because `to_leetspeak`
lower-cases its input. -/
theorem C1_counterexample :
    table.all (fun p => p.1 ≠ 'Q') = true ∧
    from_leetspeak (to_leetspeak ['Q']) = ['q'] ∧ (['q'] : Str) ≠ ['Q'] := by
  refine ⟨by decide, by decide, by decide⟩

/-- C1 (amended): the round trip `from_leetspeak ∘ to_leetspeak` is the
identity on strings of characters that are fixed by lower-casing, are not
table keys, are not digits or underscore (the reverse and extended
replacement keys), and are not `z` (every numeric-fix word contains one of
`i o z e a`, all of which are already excluded). -/
theorem C1_roundtrip_amended (l : Str) (hAll : ∀ c ∈ l, allowedChar c = true) :
    from_leetspeak (to_leetspeak l) = l := by
  rw [to_leetspeak_id l hAll]
  unfold from_leetspeak
  by_cases hl : l = []
  · simp [hl]
  · rw [if_neg hl]
    have h1 : reverse_table.foldl (fun acc p => pyReplace p.1 p.2 acc) l = l := by
      apply foldRep_noOcc
      intro p hp
      have hrev : reverse_table =
          [("0".data, ['o']), ("1".data, ['i']), ("3".data, ['e']),
           ("4".data, ['a']), ("7".data, ['t']), ("_".data, [' '])] := by decide
      rw [hrev] at hp
      fin_cases hp <;>
        first
          | exact KillKey hAll '0' (by decide) (by decide)
          | exact KillKey hAll '1' (by decide) (by decide)
          | exact KillKey hAll '3' (by decide) (by decide)
          | exact KillKey hAll '4' (by decide) (by decide)
          | exact KillKey hAll '7' (by decide) (by decide)
          | exact KillKey hAll '_' (by decide) (by decide)
    have h2 : extended_reverse.foldl (fun acc p => pyReplace [p.1] [p.2] acc) l = l := by
      apply foldExt_noOcc
      intro p hp
      fin_cases hp <;> exact KillChar hAll _ (by decide)
    have h3 : numeric_fixes.foldl (fun acc p => wordSub p.1 p.2 acc) l = l := by
      apply foldWord_noOcc
      intro p hp
      fin_cases hp <;>
        first
          | exact KillKey hAll 'i' (by decide) (by decide)
          | exact KillKey hAll 'z' (by decide) (by decide)
          | exact KillKey hAll 'e' (by decide) (by decide)
          | exact KillKey hAll 'a' (by decide) (by decide)
          | exact KillKey hAll 'o' (by decide) (by decide)
    show numeric_fixes.foldl (fun acc p => wordSub p.1 p.2 acc)
        (extended_reverse.foldl (fun acc p => pyReplace [p.1] [p.2] acc)
          (reverse_table.foldl (fun acc p => pyReplace p.1 p.2 acc) l)) = l
    rw [h1, h2, h3]

/-- Witness for C1: the amended statement applied at a concrete input. -/
theorem C1_roundtrip_amended_witness :
    from_leetspeak (to_leetspeak ("xy.q".data)) = ("xy.q".data) :=
  C1_roundtrip_amended ("xy.q".data) (by decide)

/-! # Claim C10: characters never output by `from_leetspeak` -/

theorem singleRep_mem {k v : Char} :
    ∀ (l : Str) (c : Char), c ∈ pyReplaceGo [k] [v] 0 l → c = v ∨ (c ∈ l ∧ c ≠ k) := by
  intro l
  induction l with
  | nil => intro c hc; simp [pyReplaceGo] at hc
  | cons c0 r ih =>
    intro c hc
    unfold pyReplaceGo at hc
    by_cases hk : (k == c0) = true
    · rw [if_pos (by simp [begWith, hk])] at hc
      simp only [List.length_cons, List.length_nil, Nat.zero_add, Nat.sub_self,
        List.cons_append, List.nil_append, List.mem_cons] at hc
      rcases hc with hc | hc
      · exact Or.inl hc
      · rcases ih c hc with hc | hc
        · exact Or.inl hc
        · exact Or.inr ⟨List.mem_cons_of_mem _ hc.1, hc.2⟩
    · rw [if_neg (by simp [begWith, hk])] at hc
      rcases List.mem_cons.mp hc with hc | hc
      · subst hc
        refine Or.inr ⟨List.mem_cons_self _ _, ?_⟩
        intro he
        exact hk (by simp [he])
      · rcases ih c hc with hc | hc
        · exact Or.inl hc
        · exact Or.inr ⟨List.mem_cons_of_mem _ hc.1, hc.2⟩

theorem foldExt_mem :
    ∀ (L : List (Char × Char)) (l : Str) (c : Char),
      c ∈ L.foldl (fun acc p => pyReplace [p.1] [p.2] acc) l →
      (c ∈ l ∧ ∀ p ∈ L, c ≠ p.1) ∨ (∃ p ∈ L, c = p.2) := by
  intro L
  induction L with
  | nil => intro l c hc; exact Or.inl ⟨hc, by simp⟩
  | cons p L' ih =>
    intro l c hc
    simp only [List.foldl_cons] at hc
    rcases ih (pyReplace [p.1] [p.2] l) c hc with h | h
    · rcases singleRep_mem l c h.1 with h2 | h2
      · exact Or.inr ⟨p, List.mem_cons_self p L', h2⟩
      · refine Or.inl ⟨h2.1, ?_⟩
        intro q hq
        rcases List.mem_cons.mp hq with hq | hq
        · rw [← hq] at h2; exact h2.2
        · exact h.2 q hq
    · obtain ⟨q, hq, hcq⟩ := h
      exact Or.inr ⟨q, List.mem_cons_of_mem _ hq, hcq⟩

theorem wordSubGo_mem {k v : Str} :
    ∀ (l : Str) (pw : Bool) (s : Nat) (c : Char),
      c ∈ wordSubGo k v pw s l → c ∈ v ∨ c ∈ l := by
  intro l
  induction l with
  | nil => intro pw s c hc; simp [wordSubGo] at hc
  | cons c0 r ih =>
    intro pw s c hc
    match s, hc with
    | sk + 1, hc =>
      rcases ih _ _ c hc with h | h
      · exact Or.inl h
      · exact Or.inr (List.mem_cons_of_mem _ h)
    | 0, hc =>
      unfold wordSubGo at hc
      by_cases hhit : wordHit k pw (c0 :: r) = true
      · rw [if_pos hhit] at hc
        rcases List.mem_append.mp hc with h | h
        · exact Or.inl h
        · rcases ih _ _ c h with h2 | h2
          · exact Or.inl h2
          · exact Or.inr (List.mem_cons_of_mem _ h2)
      · rw [if_neg hhit] at hc
        rcases List.mem_cons.mp hc with h | h
        · exact Or.inr (h ▸ List.mem_cons_self _ _)
        · rcases ih _ _ c h with h2 | h2
          · exact Or.inl h2
          · exact Or.inr (List.mem_cons_of_mem _ h2)

theorem foldWord_mem :
    ∀ (L : List (Str × Str)) (l : Str) (c : Char),
      c ∈ L.foldl (fun acc p => wordSub p.1 p.2 acc) l →
      c ∈ l ∨ ∃ p ∈ L, c ∈ p.2 := by
  intro L
  induction L with
  | nil => intro l c hc; exact Or.inl hc
  | cons p L' ih =>
    intro l c hc
    simp only [List.foldl_cons] at hc
    rcases ih (wordSub p.1 p.2 l) c hc with h | h
    · rcases wordSubGo_mem l _ _ c h with h2 | h2
      · exact Or.inr ⟨p, List.mem_cons_self p L', h2⟩
      · exact Or.inl h2
    · obtain ⟨q, hq, hcq⟩ := h
      exact Or.inr ⟨q, List.mem_cons_of_mem _ hq, hcq⟩

/-- C10 (confirmed): `from_leetspeak` never outputs an underscore or any of
the uppercase letters O, I, E, A, T, S, G, B, Z: the extended pass replaces
every one of them (they are all among its keys, and no replacement value or
numeric digit string reintroduces them). -/
theorem C10_no_forbidden_output (l : Str) (c : Char) (hc : c ∈ from_leetspeak l) :
    forbChar c = false := by
  unfold from_leetspeak at hc
  by_cases hl : l = []
  · rw [if_pos hl] at hc
    simp at hc
  · rw [if_neg hl] at hc
    have hc2 : c ∈ numeric_fixes.foldl (fun acc p => wordSub p.1 p.2 acc)
        (extended_reverse.foldl (fun acc p => pyReplace [p.1] [p.2] acc)
          (reverse_table.foldl (fun acc p => pyReplace p.1 p.2 acc) l)) := hc
    rcases foldWord_mem _ _ _ hc2 with h | h
    · rcases foldExt_mem _ _ _ h with h2 | h2
      · have hk := h2.2
        by_contra hforb
        rw [Bool.not_eq_false] at hforb
        simp only [forbChar, Bool.or_eq_true, beq_iff_eq] at hforb
        rcases hforb with ((((((((h3 | h3) | h3) | h3) | h3) | h3) | h3) | h3) | h3) | h3 <;>
          subst h3 <;>
          first
            | exact hk ('_', ' ') (by decide) rfl
            | exact hk ('O', 'o') (by decide) rfl
            | exact hk ('I', 'i') (by decide) rfl
            | exact hk ('E', 'e') (by decide) rfl
            | exact hk ('A', 'a') (by decide) rfl
            | exact hk ('T', 't') (by decide) rfl
            | exact hk ('S', 's') (by decide) rfl
            | exact hk ('G', 'g') (by decide) rfl
            | exact hk ('B', 'b') (by decide) rfl
            | exact hk ('Z', 'z') (by decide) rfl
      · obtain ⟨p, hp, hcp⟩ := h2
        subst hcp
        revert hp
        have : ∀ p ∈ extended_reverse, forbChar p.2 = false := by decide
        exact this p
    · obtain ⟨p, hp, hcp⟩ := h
      have : ∀ p ∈ numeric_fixes, ∀ c ∈ p.2, forbChar c = false := by decide
      exact this p hp c hcp

/-- Witness for C10: the theorem applied at a concrete input. -/
theorem C10_no_forbidden_output_witness :
    'o' ∈ from_leetspeak ("0_X".data) ∧ forbChar 'o' = false :=
  ⟨by decide, C10_no_forbidden_output ("0_X".data) 'o' (by decide)⟩

/-! # Fence stripping produces fence-free text (towards claim C4) -/

theorem stripFencesGo_skip : ∀ (l : Str) (s : Nat),
    stripFencesGo s l = stripFencesGo 0 (l.drop s) := by
  intro l
  induction l with
  | nil => intro s; cases s <;> rfl
  | cons c r ih =>
    intro s
    cases s with
    | zero => rw [List.drop_zero]
    | succ s =>
      show stripFencesGo s r = _
      rw [ih s, List.drop_succ_cons]

theorem begWith_head {a : Char} {w l : Str} (h : begWith (a :: w) l = true) :
    begWith [a] l = true := by
  cases l with
  | nil => simp [begWith] at h
  | cons b r =>
    simp only [begWith, Bool.and_eq_true] at h
    simp [begWith, h.1]

/-- Unfolding equation for `stripFencesGo` at skip 0 on a cons cell. -/
theorem stripFencesGo_cons (c : Char) (r : Str) :
    stripFencesGo 0 (c :: r) =
      if begWith fenceMd (c :: r) then stripFencesGo (fenceMd.length - 1) r
      else if begWith fence3 (c :: r) then stripFencesGo (fence3.length - 1) r
      else c :: stripFencesGo 0 r := rfl

theorem begWith_fenceMd_eq (d : Char) (r2 : Str) :
    begWith fenceMd (d :: r2) =
      (btChar == d && begWith ([btChar, btChar] ++ "markdown".data) r2) := rfl

theorem begWith_fence3_eq (d : Char) (r2 : Str) :
    begWith fence3 (d :: r2) = (btChar == d && begWith [btChar, btChar] r2) := rfl

theorem begWith_two_eq (a b d : Char) (r2 : Str) :
    begWith [a, b] (d :: r2) = (a == d && begWith [b] r2) := rfl

theorem begWith_one_eq (a d : Char) (r2 : Str) :
    begWith [a] (d :: r2) = (a == d) := by
  simp [begWith]

theorem stripFences_keep_head1 : ∀ r : Str, begWith [btChar] r = false →
    begWith [btChar] (stripFencesGo 0 r) = false := by
  intro r hd
  cases r with
  | nil => rfl
  | cons d r2 =>
    rw [begWith_one_eq] at hd
    have hmd : begWith fenceMd (d :: r2) = false := by
      rw [begWith_fenceMd_eq, hd, Bool.false_and]
    have h3 : begWith fence3 (d :: r2) = false := by
      rw [begWith_fence3_eq, hd, Bool.false_and]
    rw [stripFencesGo_cons, hmd, h3]
    simp only [Bool.false_eq_true, if_false]
    rw [begWith_one_eq, hd]

theorem stripFences_keep_head2 : ∀ r : Str, begWith [btChar, btChar] r = false →
    begWith [btChar, btChar] (stripFencesGo 0 r) = false := by
  intro r hd
  cases r with
  | nil => rfl
  | cons d r2 =>
    rw [begWith_two_eq] at hd
    by_cases hbd : (btChar == d) = true
    · rw [hbd, Bool.true_and] at hd
      have hmd : begWith fenceMd (d :: r2) = false := by
        rw [begWith_fenceMd_eq, hbd, Bool.true_and]
        by_contra hq
        rw [Bool.not_eq_false] at hq
        have := begWith_head hq
        rw [this] at hd
        exact Bool.noConfusion hd
      have h3 : begWith fence3 (d :: r2) = false := by
        rw [begWith_fence3_eq, hbd, Bool.true_and]
        by_contra hq
        rw [Bool.not_eq_false] at hq
        have := begWith_head hq
        rw [this] at hd
        exact Bool.noConfusion hd
      rw [stripFencesGo_cons, hmd, h3]
      simp only [Bool.false_eq_true, if_false]
      rw [begWith_two_eq, hbd, Bool.true_and]
      exact stripFences_keep_head1 r2 hd
    · rw [Bool.not_eq_true] at hbd
      have hmd : begWith fenceMd (d :: r2) = false := by
        rw [begWith_fenceMd_eq, hbd, Bool.false_and]
      have h3 : begWith fence3 (d :: r2) = false := by
        rw [begWith_fence3_eq, hbd, Bool.false_and]
      rw [stripFencesGo_cons, hmd, h3]
      simp only [Bool.false_eq_true, if_false]
      rw [begWith_two_eq, hbd, Bool.false_and]

theorem stripFences_noFence : ∀ (n : Nat) (l : Str), l.length ≤ n →
    containsTok fence3 (stripFencesGo 0 l) = false := by
  intro n
  induction n with
  | zero =>
    intro l hl
    have : l = [] := List.eq_nil_of_length_eq_zero (Nat.le_zero.mp hl)
    subst this
    rfl
  | succ n ih =>
    intro l hl
    cases l with
    | nil => rfl
    | cons c r =>
      have hr : r.length ≤ n := by
        simpa [List.length_cons, Nat.succ_le_succ_iff] using hl
      by_cases hmd : begWith fenceMd (c :: r) = true
      · rw [stripFencesGo_cons, hmd]
        simp only [if_true]
        rw [stripFencesGo_skip]
        exact ih _ (by simp only [List.length_drop]; omega)
      · rw [Bool.not_eq_true] at hmd
        by_cases h3 : begWith fence3 (c :: r) = true
        · rw [stripFencesGo_cons, hmd, h3]
          simp only [Bool.false_eq_true, if_false, if_true]
          rw [stripFencesGo_skip]
          exact ih _ (by simp only [List.length_drop]; omega)
        · rw [Bool.not_eq_true] at h3
          rw [stripFencesGo_cons, hmd, h3]
          simp only [Bool.false_eq_true, if_false]
          simp only [containsTok, Bool.or_eq_false_iff]
          refine ⟨?_, ih r hr⟩
          rw [begWith_fence3_eq] at h3 ⊢
          by_cases hbc : (btChar == c) = true
          · rw [hbc, Bool.true_and] at h3 ⊢
            exact stripFences_keep_head2 r h3
          · rw [Bool.not_eq_true] at hbc
            rw [hbc, Bool.false_and]

/-- The text fed to the strategies contains no triple backtick. -/
theorem stripFences_fence_free (l : Str) :
    containsTok fence3 (stripFences l) = false :=
  stripFences_noFence l.length l (Nat.le_refl _)

theorem begWith_drop_eq_false {m l : Str} (h : containsTok m l = false) (p : Nat) :
    begWith m (l.drop p) = false := by
  by_contra hq
  rw [Bool.not_eq_false] at hq
  rw [containsTok_of_drop p hq] at h
  exact Bool.noConfusion h

theorem codeBlocks_of_fence_free {s : Str} (h : containsTok fence3 s = false) :
    codeBlocks s = [] := by
  show codeBlocksGo s 0 (s.length + 1) = []
  unfold codeBlocksGo
  have hnone : (List.range (s.length + 1)).findSome? (fun p =>
      if 0 ≤ p && begWith fence3 (s.drop p) then
        let j := p + 3 + wordRun s (p + 3)
        let j2 := j + (if sAt s j == '\n' then 1 else 0)
        ((List.range (s.length + 1)).find? (fun q =>
            decide (j2 ≤ q) && begWith fence3 (s.drop q))).map (fun q => (j2, q))
      else none) = none := by
    rw [List.findSome?_eq_none_iff]
    intro p _
    rw [begWith_drop_eq_false h p]
    simp
  rw [hnone]

theorem strategy3_of_fence_free {s : Str} (h : containsTok fence3 s = false) :
    strategy3 s = none := by
  unfold strategy3
  rw [codeBlocks_of_fence_free h]
  simp

/-! # Claim C4: strategy 3 is dead code -/

/-- C4 (confirmed): `extract_leetspeak` equals the same cascade with
Strategy 3 deleted — the fence stripping at the start of extraction removes
every triple backtick, so the code-block regex never finds a fenced body. -/
theorem C4_strategy3_dead (resp : Str) :
    extract_leetspeak resp = extract_noStrategy3 resp := by
  unfold extract_leetspeak extract_noStrategy3
  by_cases h : (resp = [] ∨ pyStrip resp = [])
  · rw [if_pos h, if_pos h]
  · rw [if_neg h, if_neg h]
    have h3 : strategy3 (stripFences resp) = none :=
      strategy3_of_fence_free (stripFences_fence_free resp)
    cases h1 : strategy1 (stripFences resp) with
    | some t => simp only [h1]
    | none =>
      cases h2 : strategy2 (stripFences resp) with
      | some t => simp only [h1, h2]
      | none => simp only [h1, h2, h3]

/-! # Claim C6: totality of the cascade -/

/-- C6 (confirmed): on every input — including empty, whitespace-only and
malformed strings — `extract_leetspeak` returns through exactly one of its
paths (early empty check, strategies 1, 2, 3, 4, or the full-response
fallback), and `process_response` is the total composition of the extractor,
the pre-decode cleaners, the decoder and the post-decode cleaner.  In this
embedding every pass is a total function, so both functions always return a
string and no error path exists. -/
theorem C6_total_cascade (resp : Str) :
    process_response resp =
      post_decode_clean (from_leetspeak (clean_stage_directions
        (hlpSub (hpSub (extract_leetspeak resp))))) ∧
    ((resp = [] ∨ pyStrip resp = []) ∧ extract_leetspeak resp = [] ∨
     (∃ t, strategy1 (stripFences resp) = some t ∧ extract_leetspeak resp = t) ∨
     (∃ t, strategy1 (stripFences resp) = none ∧
        strategy2 (stripFences resp) = some t ∧ extract_leetspeak resp = t) ∨
     (∃ t, strategy1 (stripFences resp) = none ∧ strategy2 (stripFences resp) = none ∧
        strategy3 (stripFences resp) = some t ∧ extract_leetspeak resp = t) ∨
     (∃ t, strategy1 (stripFences resp) = none ∧ strategy2 (stripFences resp) = none ∧
        strategy3 (stripFences resp) = none ∧ strategy4 (stripFences resp) = some t ∧
        extract_leetspeak resp = t) ∨
     (strategy1 (stripFences resp) = none ∧ strategy2 (stripFences resp) = none ∧
        strategy3 (stripFences resp) = none ∧ strategy4 (stripFences resp) = none ∧
        extract_leetspeak resp = stripFences resp)) := by
  constructor
  · rfl
  · by_cases h : (resp = [] ∨ pyStrip resp = [])
    · refine Or.inl ⟨h, ?_⟩
      unfold extract_leetspeak
      rw [if_pos h]
    · have hex : extract_leetspeak resp =
          (match strategy1 (stripFences resp) with
           | some t => t
           | none =>
             match strategy2 (stripFences resp) with
             | some t => t
             | none =>
               match strategy3 (stripFences resp) with
               | some t => t
               | none =>
                 match strategy4 (stripFences resp) with
                 | some t => t
                 | none => stripFences resp) := by
        unfold extract_leetspeak
        rw [if_neg h]
      cases h1 : strategy1 (stripFences resp) with
      | some t =>
        refine Or.inr (Or.inl ⟨t, rfl, ?_⟩)
        rw [hex, h1]
      | none =>
        cases h2 : strategy2 (stripFences resp) with
        | some t =>
          refine Or.inr (Or.inr (Or.inl ⟨t, rfl, rfl, ?_⟩))
          rw [hex, h1, h2]
        | none =>
          cases h3 : strategy3 (stripFences resp) with
          | some t =>
            refine Or.inr (Or.inr (Or.inr (Or.inl ⟨t, rfl, rfl, rfl, ?_⟩)))
            rw [hex, h1, h2, h3]
          | none =>
            cases h4 : strategy4 (stripFences resp) with
            | some t =>
              refine Or.inr (Or.inr (Or.inr (Or.inr (Or.inl ⟨t, rfl, rfl, rfl, rfl, ?_⟩))))
              rw [hex, h1, h2, h3, h4]
            | none =>
              refine Or.inr (Or.inr (Or.inr (Or.inr (Or.inr ⟨rfl, rfl, rfl, rfl, ?_⟩))))
              rw [hex, h1, h2, h3, h4]

/-! # Towards claim C7: character corollaries -/

theorem isWordChar_of_isUpper {c : Char} (h : c.isUpper = true) : isWordChar c = true := by
  rw [isWordChar_iff]
  rw [isUpper_iff] at h
  omega

theorem pyIsSpace_not_word {c : Char} (h : pyIsSpace c = true) : isWordChar c = false := by
  rw [pyIsSpace_iff] at h
  by_contra hq
  rw [Bool.not_eq_false, isWordChar_iff] at hq
  omega

theorem lowEq_iff {a b : Char} : lowEq a b = true ↔ pyLower a = pyLower b := by
  simp [lowEq]

theorem lowEq_refl (a : Char) : lowEq a a = true := by simp [lowEq]

theorem upper_lowEq_ws {a c : Char} (ha : a.isUpper = true) (hc : pyIsSpace c = true) :
    lowEq a c = false := by
  by_contra hq
  rw [Bool.not_eq_false, lowEq_iff] at hq
  have h1 := toNat_pyLower a
  have h2 := toNat_pyLower c
  have h3 : (pyLower a).toNat = (pyLower c).toNat := by rw [hq]
  rw [isUpper_iff] at ha
  rw [pyIsSpace_iff] at hc
  split at h1 <;> split at h2 <;> omega

theorem upper_lowEq_nl {a : Char} (hn : lowEq a '\n' = true) : a = '\n' := by
  rw [lowEq_iff] at hn
  refine eq_of_pyLower_eq hn ?_ ?_
  · have : ('\n' : Char).toNat = 10 := rfl
    omega
  · have : ('\n' : Char).toNat = 10 := rfl
    omega

theorem upper_ne_nl {a : Char} (ha : a.isUpper = true) : (a == '\n') = false := by
  rw [isUpper_iff] at ha
  by_contra hq
  rw [Bool.not_eq_false, beq_iff_eq] at hq
  subst hq
  have : ('\n' : Char).toNat = 10 := rfl
  omega

theorem upper_not_ws {a : Char} (ha : a.isUpper = true) : pyIsSpace a = false := by
  rw [isUpper_iff] at ha
  by_contra hq
  rw [Bool.not_eq_false, pyIsSpace_iff] at hq
  omega

/-! # `caselessBeg` toolbox -/

theorem caselessBeg_take {w l : Str} (h : caselessBeg w l = true) :
    (l.take w.length).map pyLower = w.map pyLower := by
  induction w generalizing l with
  | nil => simp
  | cons a w' ih =>
    cases l with
    | nil => simp [caselessBeg] at h
    | cons b r =>
      simp only [caselessBeg, Bool.and_eq_true, lowEq_iff] at h
      simp only [List.length_cons, List.take_succ_cons, List.map_cons]
      rw [h.1, ih h.2]

theorem caselessBeg_lower_congr {w l l' : Str} (h : l.map pyLower = l'.map pyLower) :
    caselessBeg w l = caselessBeg w l' := by
  induction w generalizing l l' with
  | nil => rfl
  | cons a w' ih =>
    cases l with
    | nil =>
      cases l' with
      | nil => rfl
      | cons b' r' => simp at h
    | cons b r =>
      cases l' with
      | nil => simp at h
      | cons b' r' =>
        simp only [List.map_cons, List.cons.injEq] at h
        simp only [caselessBeg, lowEq, h.1, ih h.2]

theorem caselessBeg_drop {w l : Str} (i : Nat) (h : caselessBeg w l = true) :
    caselessBeg (w.drop i) (l.drop i) = true := by
  induction i generalizing w l with
  | zero => simpa using h
  | succ i ih =>
    cases w with
    | nil => simp [caselessBeg]
    | cons a w' =>
      cases l with
      | nil => simp [caselessBeg] at h
      | cons b r =>
        simp only [caselessBeg, Bool.and_eq_true] at h
        simpa using ih h.2

theorem caselessBeg_self_append (n z : Str) : caselessBeg n (n ++ z) = true := by
  induction n with
  | nil => rfl
  | cons a w ih =>
    simp only [List.cons_append, caselessBeg, Bool.and_eq_true]
    exact ⟨lowEq_refl a, ih⟩

theorem caselessBeg_pad {n t : Str} (w : Str) (hle : n.length ≤ t.length) :
    caselessBeg n (t ++ w) = caselessBeg n t := by
  induction n generalizing t with
  | nil => rfl
  | cons a n' ih =>
    cases t with
    | nil => simp at hle
    | cons b t' =>
      simp only [List.length_cons, Nat.succ_le_succ_iff] at hle
      show (lowEq a b && caselessBeg n' (t' ++ w)) = (lowEq a b && caselessBeg n' t')
      rw [ih hle]

theorem caselessBeg_ws_bound {n t w : Str} (hn : ∀ ch ∈ n, ch.isUpper = true)
    (hw : ∀ ch ∈ w, pyIsSpace ch = true) (h : caselessBeg n (t ++ w) = true) :
    n.length ≤ t.length := by
  induction t generalizing n with
  | nil =>
    cases n with
    | nil => simp
    | cons a n' =>
      simp only [List.nil_append] at h
      cases w with
      | nil => simp [caselessBeg] at h
      | cons c w' =>
        simp only [caselessBeg, Bool.and_eq_true] at h
        have := upper_lowEq_ws (hn a (List.mem_cons_self a n')) (hw c (List.mem_cons_self c w'))
        rw [h.1] at this
        exact Bool.noConfusion this
  | cons b t' ih =>
    cases n with
    | nil => simp
    | cons a n' =>
      simp only [List.cons_append, caselessBeg, Bool.and_eq_true] at h
      have := ih (n := n') (fun ch hch => hn ch (List.mem_cons_of_mem _ hch)) h.2
      simp only [List.length_cons]
      omega

/-! # `nameGo` equations -/

theorem pwAfter_cons (pw : Bool) (c : Char) (ch : Str) :
    pwAfter pw (c :: ch) = pwAfter (isWordChar c) ch := rfl

theorem nameGo_skip (n : Str) : ∀ (l : Str) (pw : Bool) (s : Nat),
    nameGo n pw s l = nameGo n (pwAfter pw (l.take s)) 0 (l.drop s) := by
  intro l
  induction l with
  | nil => intro pw s; cases s <;> rfl
  | cons c r ih =>
    intro pw s
    cases s with
    | zero => rfl
    | succ s =>
      show nameGo n (isWordChar c) s r = _
      rw [ih (isWordChar c) s, List.take_succ_cons, List.drop_succ_cons, pwAfter_cons]

theorem nameGo_cons (n : Str) (pw : Bool) (c : Char) (r : Str) :
    nameGo n pw 0 (c :: r) =
      if nameHit n pw (c :: r) then n ++ nameGo n (isWordChar c) (n.length - 1) r
      else c :: nameGo n (isWordChar c) 0 r := rfl

theorem nameHit_parts {n : Str} {pw : Bool} {c : Char} {r : Str}
    (h : nameHit n pw (c :: r) = true) :
    0 < n.length ∧ caselessBeg n (c :: r) = true ∧ (pw != isWordChar c) = true ∧
      (match (c :: r).drop n.length with
       | [] => isWordChar (n.getLastD ' ')
       | d :: _ => isWordChar (n.getLastD ' ') != isWordChar d) = true := by
  unfold nameHit at h
  simp only [Bool.and_eq_true, decide_eq_true_eq] at h
  exact ⟨h.1.1.1, h.1.1.2, h.1.2, h.2⟩

/-- Lowers of an all-uppercase caseless match force `pwAfter` to be true. -/
theorem pwAfter_of_lower_upper : ∀ (w m : Str) (pw : Bool),
    w.map pyLower = m.map pyLower → m ≠ [] → (∀ ch ∈ m, ch.isUpper = true) →
    pwAfter pw w = true := by
  intro w
  induction w with
  | nil =>
    intro m pw h hm _
    cases m with
    | nil => exact absurd rfl hm
    | cons a m' => simp at h
  | cons a w' ih =>
    intro m pw h hm hup
    cases m with
    | nil => simp at h
    | cons b m' =>
      simp only [List.map_cons, List.cons.injEq] at h
      cases w' with
      | nil =>
        cases m' with
        | nil =>
          show isWordChar a = true
          rw [isWordChar_of_lowEq h.1]
          exact isWordChar_of_isUpper (hup b (List.mem_cons_self b []))
        | cons bb m'' => simp at h
      | cons aa w'' =>
        cases m' with
        | nil => simp at h
        | cons bb m'' =>
          rw [pwAfter_cons]
          exact ih (bb :: m'') (isWordChar a) h.2 (by simp)
            (fun ch hch => hup ch (List.mem_cons_of_mem _ hch))

/-- Jump equation of `nameGo` for a match: the canonical name is emitted and
the scan continues after the matched span with previous-word status true
(the span ends in a letter). -/
theorem nameGo_match {n : Str} (hup : ∀ ch ∈ n, ch.isUpper = true)
    {pw : Bool} {c : Char} {r : Str} (h : nameHit n pw (c :: r) = true) :
    nameGo n pw 0 (c :: r) = n ++ nameGo n true 0 ((c :: r).drop n.length) := by
  obtain ⟨hpos, hcb, -, -⟩ := nameHit_parts h
  rw [nameGo_cons, h]
  simp only [if_true]
  rw [nameGo_skip]
  have hlen : n.length - 1 + 1 = n.length := Nat.succ_pred_eq_of_pos hpos
  have hd : r.drop (n.length - 1) = (c :: r).drop n.length := by
    rw [← hlen, List.drop_succ_cons]
    simp
  have htake : (c :: r.take (n.length - 1)) = (c :: r).take n.length := by
    rw [← hlen, List.take_succ_cons]
    simp
  have hpw : pwAfter (isWordChar c) (r.take (n.length - 1)) = true := by
    rw [← pwAfter_cons pw, htake]
    refine pwAfter_of_lower_upper _ n pw (caselessBeg_take hcb) ?_ hup
    intro hnil
    rw [hnil] at hpos
    simp at hpos
  rw [hd, hpw]

theorem nameGo_noMatch {n : Str} {pw : Bool} {c : Char} {r : Str}
    (h : nameHit n pw (c :: r) = false) :
    nameGo n pw 0 (c :: r) = c :: nameGo n (isWordChar c) 0 r := by
  rw [nameGo_cons, h]
  simp

/-- `nameGo` preserves the lower-cased text. -/
theorem nameGo_lower {n : Str} (hup : ∀ ch ∈ n, ch.isUpper = true) :
    ∀ (N : Nat) (l : Str), l.length ≤ N → ∀ pw : Bool,
      (nameGo n pw 0 l).map pyLower = l.map pyLower := by
  intro N
  induction N with
  | zero =>
    intro l hl pw
    have : l = [] := List.eq_nil_of_length_eq_zero (Nat.le_zero.mp hl)
    subst this
    rfl
  | succ N ih =>
    intro l hl pw
    cases l with
    | nil => rfl
    | cons c r =>
      by_cases h : nameHit n pw (c :: r) = true
      · obtain ⟨hpos, hcb, -, -⟩ := nameHit_parts h
        rw [nameGo_match hup h, List.map_append]
        have hiu : ((c :: r).drop n.length).length ≤ N := by
          simp only [List.length_drop, List.length_cons] at hl ⊢
          omega
        rw [ih _ hiu true]
        calc n.map pyLower ++ ((c :: r).drop n.length).map pyLower
            = ((c :: r).take n.length).map pyLower ++ ((c :: r).drop n.length).map pyLower := by
              rw [caselessBeg_take hcb]
        _ = (c :: r).map pyLower := by rw [← List.map_append, List.take_append_drop]
      · rw [Bool.not_eq_true] at h
        rw [nameGo_noMatch h]
        simp only [List.map_cons]
        rw [ih r (by simp only [List.length_cons] at hl; omega) (isWordChar c)]

/-- `nameHit` depends only on the lower-cased text. -/
theorem nameHit_lower_congr {n : Str} {pw : Bool} {l l' : Str}
    (h : l.map pyLower = l'.map pyLower) : nameHit n pw l = nameHit n pw l' := by
  cases l with
  | nil =>
    cases l' with
    | nil => rfl
    | cons c' r' => simp at h
  | cons c r =>
    cases l' with
    | nil => simp at h
    | cons c' r' =>
      simp only [List.map_cons, List.cons.injEq] at h
      have e1 : caselessBeg n (c :: r) = caselessBeg n (c' :: r') :=
        caselessBeg_lower_congr (by simp [h.1, h.2])
      have e2 : isWordChar c = isWordChar c' := isWordChar_of_lowEq h.1
      have hdrop : ((c :: r).drop n.length).map pyLower =
          ((c' :: r').drop n.length).map pyLower := by
        rw [List.map_drop, List.map_drop]
        simp [h.1, h.2]
      cases hd : (c :: r).drop n.length with
      | nil =>
        cases hd' : (c' :: r').drop n.length with
        | nil => simp only [nameHit, hd, hd', e1, e2]
        | cons d' rest' =>
          rw [hd, hd'] at hdrop
          simp at hdrop
      | cons d rest =>
        cases hd' : (c' :: r').drop n.length with
        | nil =>
          rw [hd, hd'] at hdrop
          simp at hdrop
        | cons d' rest' =>
          rw [hd, hd'] at hdrop
          simp only [List.map_cons, List.cons.injEq] at hdrop
          have e3 : isWordChar d = isWordChar d' := isWordChar_of_lowEq hdrop.1
          simp only [nameHit, hd, hd', e1, e2, e3]

theorem nameHit_nil (n : Str) (pw : Bool) : nameHit n pw [] = false := rfl

/-- `nameGo_match` for an arbitrary list argument. -/
theorem nameGo_match' {n : Str} (hup : ∀ ch ∈ n, ch.isUpper = true)
    {pw : Bool} {l : Str} (h : nameHit n pw l = true) :
    nameGo n pw 0 l = n ++ nameGo n true 0 (l.drop n.length) := by
  cases l with
  | nil => rw [nameHit_nil] at h; exact Bool.noConfusion h
  | cons c r => exact nameGo_match hup h

/-- One application of the name scanner is enough: a second pass changes
nothing (single-name idempotence). -/
theorem nameGo_idem {n : Str} (hup : ∀ ch ∈ n, ch.isUpper = true) :
    ∀ (N : Nat) (l : Str), l.length ≤ N → ∀ pw : Bool,
      nameGo n pw 0 (nameGo n pw 0 l) = nameGo n pw 0 l := by
  intro N
  induction N with
  | zero =>
    intro l hl pw
    have : l = [] := List.eq_nil_of_length_eq_zero (Nat.le_zero.mp hl)
    subst this
    rfl
  | succ N ih =>
    intro l hl pw
    cases l with
    | nil => rfl
    | cons c r =>
      by_cases h : nameHit n pw (c :: r) = true
      · obtain ⟨hpos, hcb, -, -⟩ := nameHit_parts h
        rw [nameGo_match hup h]
        have hlenu : ((c :: r).drop n.length).length ≤ N := by
          simp only [List.length_drop, List.length_cons] at hl ⊢
          omega
        have hlow : (n ++ nameGo n true 0 ((c :: r).drop n.length)).map pyLower =
            (c :: r).map pyLower := by
          rw [List.map_append, nameGo_lower hup N _ hlenu true]
          calc n.map pyLower ++ ((c :: r).drop n.length).map pyLower
              = ((c :: r).take n.length).map pyLower ++
                  ((c :: r).drop n.length).map pyLower := by rw [caselessBeg_take hcb]
          _ = (c :: r).map pyLower := by rw [← List.map_append, List.take_append_drop]
        have hhit2 : nameHit n pw (n ++ nameGo n true 0 ((c :: r).drop n.length)) = true := by
          rw [nameHit_lower_congr hlow]
          exact h
        rw [nameGo_match' hup hhit2, List.drop_left]
        rw [ih _ hlenu true]
      · rw [Bool.not_eq_true] at h
        rw [nameGo_noMatch h]
        have hr : r.length ≤ N := by simp only [List.length_cons] at hl; omega
        have hlow : (c :: nameGo n (isWordChar c) 0 r).map pyLower =
            (c :: r).map pyLower := by
          simp only [List.map_cons]
          rw [nameGo_lower hup N r hr (isWordChar c)]
        have hh2 : nameHit n pw (c :: nameGo n (isWordChar c) 0 r) = false := by
          rw [nameHit_lower_congr hlow]
          exact h
        rw [nameGo_noMatch hh2, ih r hr (isWordChar c)]

/-- No match can start right after a word character when the current
character is also a word character (`\b` fails on the left). -/
theorem nameHit_true_word {n : Str} {d : Char} (hd : isWordChar d = true) (rest : Str) :
    nameHit n true (d :: rest) = false := by
  unfold nameHit
  simp [hd]

/-- Scanning walks through a span of word characters without matching,
provided there is no match at the span's start. -/
theorem nameGo_span_peel {n : Str} :
    ∀ (w z : Str) (pw : Bool), (∀ ch ∈ w, isWordChar ch = true) →
      (w = [] ∨ nameHit n pw (w ++ z) = false) →
      nameGo n pw 0 (w ++ z) = w ++ nameGo n (pwAfter pw w) 0 z := by
  intro w
  induction w with
  | nil => intro z pw _ _; rfl
  | cons a w' ih =>
    intro z pw hword hnohit
    rcases hnohit with hnohit | hnohit
    · exact absurd hnohit (by simp)
    · simp only [List.cons_append] at hnohit ⊢
      rw [nameGo_noMatch hnohit, pwAfter_cons]
      have ha : isWordChar a = true := hword a (List.mem_cons_self a w')
      have hrec : w' = [] ∨ nameHit n (isWordChar a) (w' ++ z) = false := by
        cases w' with
        | nil => exact Or.inl rfl
        | cons b w'' =>
          refine Or.inr ?_
          rw [ha]
          exact nameHit_true_word (hword b (by simp)) _
      rw [ih z (isWordChar a) (fun ch hch => hword ch (List.mem_cons_of_mem _ hch)) hrec]

/-- Whitespace never starts a name match. -/
theorem nameHit_ws {n : Str} (hn : n ≠ []) (hup : ∀ ch ∈ n, ch.isUpper = true)
    {ch : Char} (hch : pyIsSpace ch = true) (rest : Str) (pw : Bool) :
    nameHit n pw (ch :: rest) = false := by
  cases n with
  | nil => exact absurd rfl hn
  | cons n0 n' =>
    have : lowEq n0 ch = false := upper_lowEq_ws (hup n0 (List.mem_cons_self n0 n')) hch
    unfold nameHit
    simp only [caselessBeg, this]
    simp

/-- Scanning walks through a nonempty whitespace span, ending with
previous-word status false. -/
theorem nameGo_ws_peel {n : Str} (hn : n ≠ []) (hup : ∀ ch ∈ n, ch.isUpper = true) :
    ∀ (w z : Str) (pw : Bool), (∀ ch ∈ w, pyIsSpace ch = true) → w ≠ [] →
      nameGo n pw 0 (w ++ z) = w ++ nameGo n false 0 z := by
  intro w
  induction w with
  | nil => intro z pw _ hne; exact absurd rfl hne
  | cons a w' ih =>
    intro z pw hws _
    have ha : pyIsSpace a = true := hws a (List.mem_cons_self a w')
    simp only [List.cons_append]
    rw [nameGo_noMatch (nameHit_ws hn hup ha _ pw), pyIsSpace_not_word ha]
    cases w' with
    | nil => rfl
    | cons b w'' =>
      rw [ih z false (fun ch hch => hws ch (List.mem_cons_of_mem _ hch)) (by simp)]

/-- An all-whitespace string is left unchanged by the name scanner. -/
theorem nameGo_ws_id {n : Str} (hn : n ≠ []) (hup : ∀ ch ∈ n, ch.isUpper = true)
    (w : Str) (hws : ∀ ch ∈ w, pyIsSpace ch = true) (pw : Bool) :
    nameGo n pw 0 w = w := by
  cases w with
  | nil => rfl
  | cons a w' =>
    have := nameGo_ws_peel hn hup (a :: w') [] pw hws (by simp)
    rw [List.append_nil] at this
    rw [this]
    show a :: w' ++ ([] : Str) = a :: w'
    simp

theorem getLastD_mem : ∀ (l : Str), l ≠ [] → ∀ x : Char, l.getLastD x ∈ l := by
  intro l
  induction l with
  | nil => intro h; exact absurd rfl h
  | cons a r ih =>
    intro _ x
    cases r with
    | nil => simp
    | cons b r' =>
      rw [List.getLastD_cons]
      exact List.mem_cons_of_mem _ (ih (by simp) a)

theorem nameHit_parts' {n : Str} {pw : Bool} {l : Str} (h : nameHit n pw l = true) :
    0 < n.length ∧ caselessBeg n l = true ∧
      (match l.drop n.length with
       | [] => isWordChar (n.getLastD ' ')
       | d :: _ => isWordChar (n.getLastD ' ') != isWordChar d) = true := by
  cases l with
  | nil => rw [nameHit_nil] at h; exact Bool.noConfusion h
  | cons c r =>
    obtain ⟨h1, h2, -, h4⟩ := nameHit_parts h
    exact ⟨h1, h2, h4⟩

/-- If all characters of `w` spell (caselessly) an all-uppercase word, every
character of `w` is a word character. -/
theorem word_all_of_lower : ∀ (w m : Str), w.map pyLower = m.map pyLower →
    (∀ ch ∈ m, ch.isUpper = true) → ∀ ch ∈ w, isWordChar ch = true := by
  intro w
  induction w with
  | nil => intro m _ _ ch hch; simp at hch
  | cons a w' ih =>
    intro m h hup ch hch
    cases m with
    | nil => simp at h
    | cons b m' =>
      simp only [List.map_cons, List.cons.injEq] at h
      rcases List.mem_cons.mp hch with hch | hch
      · subst hch
        rw [isWordChar_of_lowEq h.1]
        exact isWordChar_of_isUpper (hup b (List.mem_cons_self b m'))
      · exact ih m' h.2 (fun x hx => hup x (List.mem_cons_of_mem _ hx)) ch hch

/-- Two names with different lower-cased spellings cannot both match at the
same position: the shorter one would need a word boundary in the middle of
the longer one's letters. -/
theorem nameHit_excl_lt {n m : Str} (hupN : ∀ ch ∈ n, ch.isUpper = true)
    (hupM : ∀ ch ∈ m, ch.isUpper = true) (hlt : n.length < m.length)
    {pw : Bool} {l : Str} (h1 : nameHit n pw l = true) (h2 : nameHit m pw l = true) :
    False := by
  obtain ⟨hposN, cbN, hbrN⟩ := nameHit_parts' h1
  obtain ⟨hposM, cbM, -⟩ := nameHit_parts' h2
  have hlenM : m.length ≤ l.length := caselessBeg_le_length cbM
  cases hdd : l.drop n.length with
  | nil =>
    have : l.length ≤ n.length := by
      have := congrArg List.length hdd
      simp only [List.length_drop, List.length_nil] at this
      omega
    omega
  | cons d rest =>
    rw [hdd] at hbrN
    have hlast : isWordChar (n.getLastD ' ') = true := by
      refine isWordChar_of_isUpper (hupN _ ?_)
      refine getLastD_mem n ?_ ' '
      intro hnil
      rw [hnil] at hposN
      simp at hposN
    have hdw : isWordChar d = false := by
      rw [hlast] at hbrN
      simpa using hbrN
    have cbdrop := caselessBeg_drop n.length cbM
    rw [hdd] at cbdrop
    cases hmm : m.drop n.length with
    | nil =>
      have := congrArg List.length hmm
      simp only [List.length_drop, List.length_nil] at this
      omega
    | cons mm mrest =>
      rw [hmm] at cbdrop
      simp only [caselessBeg, Bool.and_eq_true, lowEq_iff] at cbdrop
      have hmem : mm ∈ m := List.drop_subset n.length m (by rw [hmm]; simp)
      have : isWordChar d = true := by
        rw [← isWordChar_of_lowEq cbdrop.1]
        exact isWordChar_of_isUpper (hupM mm hmem)
      rw [this] at hdw
      exact Bool.noConfusion hdw

theorem nameHit_excl {n m : Str} (hupN : ∀ ch ∈ n, ch.isUpper = true)
    (hupM : ∀ ch ∈ m, ch.isUpper = true) (hdiff : n.map pyLower ≠ m.map pyLower)
    {pw : Bool} {l : Str} (h1 : nameHit n pw l = true) (h2 : nameHit m pw l = true) :
    False := by
  rcases Nat.lt_trichotomy n.length m.length with hlt | heq | hgt
  · exact nameHit_excl_lt hupN hupM hlt h1 h2
  · obtain ⟨-, cbN, -⟩ := nameHit_parts' h1
    obtain ⟨-, cbM, -⟩ := nameHit_parts' h2
    have tN := caselessBeg_take cbN
    have tM := caselessBeg_take cbM
    rw [heq] at tN
    rw [tN] at tM
    exact hdiff tM
  · exact nameHit_excl_lt hupM hupN hgt h2 h1

/-- A scanner that fixes a string keeps fixing it after another name's
scanner has run (the two names' matched spans cannot overlap). -/
theorem nameGo_cross_fix {n m : Str} (hnN : n ≠ []) (hupN : ∀ ch ∈ n, ch.isUpper = true)
    (hnM : m ≠ []) (hupM : ∀ ch ∈ m, ch.isUpper = true)
    (hdiff : n.map pyLower ≠ m.map pyLower) :
    ∀ (N : Nat) (l : Str), l.length ≤ N → ∀ pw : Bool, nameGo n pw 0 l = l →
      nameGo n pw 0 (nameGo m pw 0 l) = nameGo m pw 0 l := by
  intro N
  induction N with
  | zero =>
    intro l hl pw _
    have : l = [] := List.eq_nil_of_length_eq_zero (Nat.le_zero.mp hl)
    subst this
    rfl
  | succ N ih =>
    intro l hl pw hfix
    cases l with
    | nil => rfl
    | cons c r =>
      by_cases hitM : nameHit m pw (c :: r) = true
      · have hitN : nameHit n pw (c :: r) = false := by
          by_contra hq
          rw [Bool.not_eq_false] at hq
          exact nameHit_excl hupN hupM hdiff hq hitM
        obtain ⟨hposM, cbM, -⟩ := nameHit_parts hitM
        have hlenM : m.length ≤ (c :: r).length := caselessBeg_le_length cbM
        set span := (c :: r).take m.length with hspan
        set t2 := (c :: r).drop m.length with ht2
        have hsplit : span ++ t2 = c :: r := List.take_append_drop m.length (c :: r)
        have hspanlow : span.map pyLower = m.map pyLower := caselessBeg_take cbM
        have hspanword : ∀ ch ∈ span, isWordChar ch = true :=
          word_all_of_lower span m hspanlow hupM
        have hspanne : span ≠ [] := by
          intro hq
          have := congrArg List.length hq
          rw [hspan] at this
          simp only [List.length_take, List.length_nil] at this
          omega
        -- peel the fix along the span
        have hfix2 : nameGo n pw 0 (span ++ t2) = span ++ t2 := by rw [hsplit]; exact hfix
        have hpeel : nameGo n pw 0 (span ++ t2) =
            span ++ nameGo n (pwAfter pw span) 0 t2 := by
          refine nameGo_span_peel span t2 pw hspanword (Or.inr ?_)
          rw [hsplit]
          exact hitN
        have hpwspan : pwAfter pw span = true :=
          pwAfter_of_lower_upper span m pw hspanlow hnM hupM
        have hfixT2 : nameGo n true 0 t2 = t2 := by
          rw [hpeel] at hfix2
          have := List.append_cancel_left hfix2
          rw [hpwspan] at this
          exact this
        have hT2len : t2.length ≤ N := by
          rw [ht2]
          simp only [List.length_drop, List.length_cons] at hl ⊢
          omega
        rw [nameGo_match hupM hitM, ← ht2]
        set v := nameGo m true 0 t2 with hv
        have hvlow : v.map pyLower = t2.map pyLower := nameGo_lower hupM N t2 hT2len true
        have hlowall : (m ++ v).map pyLower = (c :: r).map pyLower := by
          rw [List.map_append, hvlow, ← hspanlow, ← List.map_append, hsplit]
        have hitN2 : nameHit n pw (m ++ v) = false := by
          rw [nameHit_lower_congr hlowall]
          exact hitN
        have hmword : ∀ ch ∈ m, isWordChar ch = true :=
          fun ch hch => isWordChar_of_isUpper (hupM ch hch)
        rw [nameGo_span_peel m v pw hmword (Or.inr hitN2)]
        have hpwm : pwAfter pw m = true :=
          pwAfter_of_lower_upper m m pw rfl hnM hupM
        rw [hpwm, ih t2 hT2len true hfixT2]
      · rw [Bool.not_eq_true] at hitM
        rw [nameGo_noMatch hitM]
        by_cases hitN : nameHit n pw (c :: r) = true
        · obtain ⟨hposN, cbN, -⟩ := nameHit_parts hitN
          have heq : c :: r = n ++ nameGo n true 0 ((c :: r).drop n.length) := by
            conv_lhs => rw [← hfix]
            rw [nameGo_match hupN hitN]
          set t2' := (c :: r).drop n.length with ht2'
          have htake : (c :: r).take n.length = n := by
            conv_lhs => rw [heq]
            exact List.take_left ..
          have hfix2 : nameGo n true 0 t2' = t2' := by
            have hdrop : (c :: r).drop n.length = nameGo n true 0 t2' := by
              conv_lhs => rw [heq]
              exact List.drop_left ..
            rw [← ht2'] at hdrop
            rw [← hdrop]
          have hl2 : c :: r = n ++ t2' := by
            conv_lhs => rw [← List.take_append_drop n.length (c :: r), htake, ← ht2']
          have hT2len : t2'.length ≤ N := by
            rw [ht2']
            simp only [List.length_drop, List.length_cons] at hl ⊢
            omega
          have hnword : ∀ ch ∈ n, isWordChar ch = true :=
            fun ch hch => isWordChar_of_isUpper (hupN ch hch)
          have hitM2 : nameHit m pw (n ++ t2') = false := by rw [← hl2]; exact hitM
          have hout : nameGo m pw 0 (c :: r) = n ++ nameGo m true 0 t2' := by
            conv_lhs => rw [hl2]
            rw [nameGo_span_peel n t2' pw hnword (Or.inr hitM2)]
            rw [pwAfter_of_lower_upper n n pw rfl hnN hupN]
          rw [← nameGo_noMatch hitM, hout]
          set w := nameGo m true 0 t2' with hw
          have hwlow : w.map pyLower = t2'.map pyLower := nameGo_lower hupM N t2' hT2len true
          have hlowall : (n ++ w).map pyLower = (c :: r).map pyLower := by
            rw [List.map_append, hwlow, ← List.map_append, ← hl2]
          have hitN2 : nameHit n pw (n ++ w) = true := by
            rw [nameHit_lower_congr hlowall]
            exact hitN
          rw [nameGo_match' hupN hitN2, List.drop_left]
          rw [ih t2' hT2len true hfix2]
        · rw [Bool.not_eq_true] at hitN
          have htail : nameGo n (isWordChar c) 0 r = r := by
            have := hfix
            rw [nameGo_noMatch hitN] at this
            exact List.tail_eq_of_cons_eq this
          have hrlen : r.length ≤ N := by
            simp only [List.length_cons] at hl
            omega
          set u := nameGo m (isWordChar c) 0 r with hu
          have hulow : (c :: u).map pyLower = (c :: r).map pyLower := by
            simp only [List.map_cons]
            rw [hu, nameGo_lower hupM N r hrlen (isWordChar c)]
          have hitN2 : nameHit n pw (c :: u) = false := by
            rw [nameHit_lower_congr hulow]
            exact hitN
          rw [nameGo_noMatch hitN2, ih r hrlen (isWordChar c) htail]

/-! # Fold-level facts about `normalize_character_names` -/

theorem foldNames_fix (L : List Str) (t : Str)
    (h : ∀ n ∈ L, nameGo n false 0 t = t) :
    L.foldl (fun t n => nameGo n false 0 t) t = t := by
  induction L with
  | nil => rfl
  | cons n0 L' ih =>
    simp only [List.foldl_cons, h n0 (List.mem_cons_self n0 L')]
    exact ih (fun n hn => h n (List.mem_cons_of_mem _ hn))

theorem foldNames_pres_fix (L : List Str) {n : Str} (hnN : n ≠ [])
    (hupN : ∀ ch ∈ n, ch.isUpper = true)
    (hL : ∀ m ∈ L, m ≠ [] ∧ (∀ ch ∈ m, ch.isUpper = true) ∧
      n.map pyLower ≠ m.map pyLower)
    (u : Str) (hfix : nameGo n false 0 u = u) :
    nameGo n false 0 (L.foldl (fun t m => nameGo m false 0 t) u) =
      L.foldl (fun t m => nameGo m false 0 t) u := by
  induction L generalizing u with
  | nil => exact hfix
  | cons m0 L' ih =>
    simp only [List.foldl_cons]
    obtain ⟨hm0, hupM0, hdiff⟩ := hL m0 (List.mem_cons_self m0 L')
    refine ih (fun m hm => hL m (List.mem_cons_of_mem _ hm)) (nameGo m0 false 0 u) ?_
    exact nameGo_cross_fix hnN hupN hm0 hupM0 hdiff u.length u (Nat.le_refl _) false hfix

theorem foldNames_all_fix (L : List Str)
    (hok : ∀ n ∈ L, n ≠ [] ∧ ∀ ch ∈ n, ch.isUpper = true)
    (hpair : L.Pairwise (fun a b => a.map pyLower ≠ b.map pyLower)) :
    ∀ (t : Str) (n : Str), n ∈ L →
      nameGo n false 0 (L.foldl (fun t m => nameGo m false 0 t) t) =
        L.foldl (fun t m => nameGo m false 0 t) t := by
  induction L with
  | nil => intro t n hn; simp at hn
  | cons n0 L' ih =>
    intro t n hn
    simp only [List.foldl_cons]
    rcases List.mem_cons.mp hn with hn | hn
    · subst hn
      obtain ⟨hne, hup⟩ := hok n (List.mem_cons_self n L')
      refine foldNames_pres_fix L' hne hup ?_ _ ?_
      · intro m hm
        obtain ⟨hm1, hm2⟩ := hok m (List.mem_cons_of_mem _ hm)
        exact ⟨hm1, hm2, (List.pairwise_cons.mp hpair).1 m hm⟩
      · exact nameGo_idem hup t.length t (Nat.le_refl _) false
    · exact ih (fun m hm => hok m (List.mem_cons_of_mem _ hm))
        (List.pairwise_cons.mp hpair).2 (nameGo n0 false 0 t) n hn

theorem foldNames_lower (L : List Str)
    (hok : ∀ n ∈ L, ∀ ch ∈ n, ch.isUpper = true) (t : Str) :
    (L.foldl (fun t m => nameGo m false 0 t) t).map pyLower = t.map pyLower := by
  induction L generalizing t with
  | nil => rfl
  | cons n0 L' ih =>
    simp only [List.foldl_cons]
    rw [ih (fun m hm => hok m (List.mem_cons_of_mem _ hm)) (nameGo n0 false 0 t)]
    exact nameGo_lower (hok n0 (List.mem_cons_self n0 L')) t.length t (Nat.le_refl _) false

/-- C7 ingredient: normalization is idempotent. -/
theorem normalize_idem (x : Str) :
    normalize_character_names (normalize_character_names x) = normalize_character_names x := by
  have hok : ∀ n ∈ character_names, n ≠ [] ∧ ∀ ch ∈ n, ch.isUpper = true := by decide
  have hpair : character_names.Pairwise (fun a b => a.map pyLower ≠ b.map pyLower) := by
    decide
  unfold normalize_character_names
  exact foldNames_fix character_names _
    (fun n hn => foldNames_all_fix character_names hok hpair x n hn)

/-! # Token absence is preserved by the name scanners -/

theorem begWith_append_short {s a u : Str} (h : begWith s (a ++ u) = true)
    (hle : s.length ≤ a.length) : begWith s a = true := by
  induction s generalizing a with
  | nil => rfl
  | cons x s' ih =>
    cases a with
    | nil => simp at hle
    | cons y a' =>
      simp only [List.cons_append, begWith, Bool.and_eq_true] at h ⊢
      simp only [List.length_cons, Nat.succ_le_succ_iff] at hle
      exact ⟨h.1, ih h.2 hle⟩

theorem begWith_append_long {s a u : Str} (h : begWith s (a ++ u) = true)
    (hlt : a.length < s.length) : begWith a s = true := by
  induction a generalizing s with
  | nil => rfl
  | cons y a' ih =>
    cases s with
    | nil => simp at hlt
    | cons x s' =>
      simp only [List.cons_append, begWith, Bool.and_eq_true, beq_iff_eq] at h ⊢
      simp only [List.length_cons, Nat.succ_lt_succ_iff] at hlt
      exact ⟨by rw [h.1], ih h.2 hlt⟩

theorem tails_tail {m s : Str} {x : Char} {s' : Str} (hs : s ∈ m.tails) (he : s = x :: s') :
    s' ∈ m.tails := by
  rw [List.mem_tails] at hs ⊢
  refine List.IsSuffix.trans ?_ hs
  rw [he]
  exact List.suffix_cons x s'

/-- Prefix matches of any suffix of a protected token pass through the name
scanner (the clash-freedom says no such suffix aligns with the name). -/
theorem nameGo_keep_begWith {n m : Str} (hup : ∀ ch ∈ n, ch.isUpper = true)
    (hclash : ∀ s ∈ m.tails, s = [] ∨ (begWith s n = false ∧ begWith n s = false)) :
    ∀ (N : Nat) (l : Str), l.length ≤ N → ∀ (pw : Bool) (s : Str), s ∈ m.tails →
      begWith s (nameGo n pw 0 l) = true → begWith s l = true := by
  intro N
  induction N with
  | zero =>
    intro l hl pw s hs h
    have : l = [] := List.eq_nil_of_length_eq_zero (Nat.le_zero.mp hl)
    subst this
    exact h
  | succ N ih =>
    intro l hl pw s hs h
    cases l with
    | nil => exact h
    | cons c r =>
      by_cases hhit : nameHit n pw (c :: r) = true
      · obtain ⟨hpos, hcb, -, -⟩ := nameHit_parts hhit
        rw [nameGo_match hup hhit] at h
        cases s with
        | nil => rfl
        | cons x s' =>
          rcases hclash (x :: s') hs with hq | hq
          · exact absurd hq (by simp)
          · exfalso
            by_cases hle : (x :: s').length ≤ n.length
            · have := begWith_append_short h hle
              rw [this] at hq
              exact Bool.noConfusion hq.1
            · have := begWith_append_long h (by omega)
              rw [this] at hq
              exact Bool.noConfusion hq.2
      · rw [Bool.not_eq_true] at hhit
        rw [nameGo_noMatch hhit] at h
        cases s with
        | nil => rfl
        | cons x s' =>
          simp only [begWith, Bool.and_eq_true] at h ⊢
          refine ⟨h.1, ?_⟩
          refine ih r (by simp only [List.length_cons] at hl; omega) (isWordChar c) s'
            (tails_tail hs rfl) h.2

theorem containsTok_span {m : Str} {mh : Char} {mt : Str} (hm : m = mh :: mt) :
    ∀ (w z : Str), (∀ ch ∈ w, (mh == ch) = false) → containsTok m z = false →
      containsTok m (w ++ z) = false := by
  intro w
  induction w with
  | nil => intro z _ h; exact h
  | cons a w' ih =>
    intro z hw hz
    simp only [List.cons_append, containsTok, Bool.or_eq_false_iff]
    constructor
    · rw [hm]
      simp only [begWith]
      have := hw a (List.mem_cons_self a w')
      rw [this, Bool.false_and]
    · exact ih z (fun ch hch => hw ch (List.mem_cons_of_mem _ hch)) hz

theorem containsTok_drop_mono {m l : Str} (h : containsTok m l = false) (k : Nat) :
    containsTok m (l.drop k) = false := by
  by_contra hq
  rw [Bool.not_eq_false] at hq
  have : containsTok m l = true := by
    have hsplit := List.take_append_drop k l
    calc containsTok m l = containsTok m (l.take k ++ l.drop k) := by rw [hsplit]
    _ = true := containsTok_append_right _ hq
  rw [this] at h
  exact Bool.noConfusion h

/-- Absence of a protected token is preserved by the name scanner. -/
theorem nameGo_keep_noTok {n m : Str} {mh : Char} {mt : Str} (hm : m = mh :: mt)
    (hup : ∀ ch ∈ n, ch.isUpper = true)
    (hclash : ∀ s ∈ m.tails, s = [] ∨ (begWith s n = false ∧ begWith n s = false))
    (hhead : ∀ ch ∈ n, (mh == ch) = false) :
    ∀ (N : Nat) (l : Str), l.length ≤ N → ∀ pw : Bool, containsTok m l = false →
      containsTok m (nameGo n pw 0 l) = false := by
  intro N
  induction N with
  | zero =>
    intro l hl pw h
    have : l = [] := List.eq_nil_of_length_eq_zero (Nat.le_zero.mp hl)
    subst this
    exact h
  | succ N ih =>
    intro l hl pw h
    cases l with
    | nil => exact h
    | cons c r =>
      by_cases hhit : nameHit n pw (c :: r) = true
      · obtain ⟨hpos, hcb, -, -⟩ := nameHit_parts hhit
        rw [nameGo_match hup hhit]
        refine containsTok_span hm n _ hhead ?_
        refine ih _ (by simp only [List.length_drop, List.length_cons] at hl ⊢; omega)
          true (containsTok_drop_mono h n.length)
      · rw [Bool.not_eq_true] at hhit
        rw [nameGo_noMatch hhit]
        simp only [containsTok, Bool.or_eq_false_iff] at h ⊢
        have hr : r.length ≤ N := by simp only [List.length_cons] at hl; omega
        refine ⟨?_, ih r hr (isWordChar c) h.2⟩
        by_contra hq
        rw [Bool.not_eq_false, hm] at hq
        cases hbq : (mh == c) with
        | false =>
          simp only [begWith, hbq, Bool.false_and] at hq
          exact Bool.noConfusion hq
        | true =>
          simp only [begWith, hbq, Bool.true_and] at hq
          have hmt_tail : mt ∈ m.tails := by
            rw [hm, List.mem_tails]
            exact List.suffix_cons mh mt
          have hmtr : begWith mt r = true :=
            nameGo_keep_begWith hup hclash N r hr (isWordChar c) mt hmt_tail hq
          have hcon : begWith m (c :: r) = true := by
            rw [hm]
            simp only [begWith, hbq, Bool.true_and]
            exact hmtr
          rw [hcon] at h
          exact Bool.noConfusion h.1

theorem foldNames_keep_noTok (L : List Str) {m : Str} {mh : Char} {mt : Str}
    (hm : m = mh :: mt)
    (hL : ∀ n ∈ L, (∀ ch ∈ n, ch.isUpper = true) ∧
      (∀ s ∈ m.tails, s = [] ∨ (begWith s n = false ∧ begWith n s = false)) ∧
      (∀ ch ∈ n, (mh == ch) = false))
    (t : Str) (h : containsTok m t = false) :
    containsTok m (L.foldl (fun t n => nameGo n false 0 t) t) = false := by
  induction L generalizing t with
  | nil => exact h
  | cons n0 L' ih =>
    simp only [List.foldl_cons]
    obtain ⟨h1, h2, h3⟩ := hL n0 (List.mem_cons_self n0 L')
    exact ih (fun n hn => hL n (List.mem_cons_of_mem _ hn)) _
      (nameGo_keep_noTok hm h1 h2 h3 t.length t (Nat.le_refl _) false h)

/-! # `collapseNl` toolbox -/

theorem collapseNlGo_skip : ∀ (l : Str) (s : Nat),
    collapseNlGo s l = collapseNlGo 0 (l.drop s) := by
  intro l
  induction l with
  | nil => intro s; cases s <;> rfl
  | cons c r ih =>
    intro s
    cases s with
    | zero => rfl
    | succ s =>
      show collapseNlGo s r = _
      rw [ih s, List.drop_succ_cons]

theorem collapseNl_cons (c : Char) (r : Str) :
    collapseNl (c :: r) =
      if c == '\n' then
        if 2 ≤ (r.takeWhile (· == '\n')).length then
          '\n' :: '\n' :: collapseNl (r.drop (r.takeWhile (· == '\n')).length)
        else c :: collapseNl r
      else c :: collapseNl r := by
  show collapseNlGo 0 (c :: r) = _
  unfold collapseNlGo
  by_cases hc : (c == '\n') = true
  · rw [hc]
    by_cases hk : 2 ≤ (r.takeWhile (· == '\n')).length
    · simp only [if_true, if_pos hk]
      rw [collapseNlGo_skip]
      rfl
    · simp only [if_true, if_neg hk]
      rfl
  · rw [Bool.not_eq_true] at hc
    rw [hc]
    rfl

theorem collapseNl_copy {c : Char} {r : Str}
    (h : (c == '\n') = false ∨ ¬ 2 ≤ (r.takeWhile (· == '\n')).length) :
    collapseNl (c :: r) = c :: collapseNl r := by
  rw [collapseNl_cons]
  rcases h with h | h
  · rw [h]; simp
  · by_cases hc : (c == '\n') = true
    · rw [hc, if_neg h]; simp
    · rw [Bool.not_eq_true] at hc; rw [hc]; simp

theorem collapseNl_match {c : Char} {r : Str} (hc : (c == '\n') = true)
    (hk : 2 ≤ (r.takeWhile (· == '\n')).length) :
    collapseNl (c :: r) =
      '\n' :: '\n' :: collapseNl (r.drop (r.takeWhile (· == '\n')).length) := by
  rw [collapseNl_cons, hc, if_pos hk]
  simp

/-- The collapse scanner preserves the first character of a nonempty list. -/
theorem collapseNl_head (d : Char) (r : Str) : ∃ w, collapseNl (d :: r) = d :: w := by
  by_cases hd : (d == '\n') = true
  · by_cases hk : 2 ≤ (r.takeWhile (· == '\n')).length
    · rw [collapseNl_match hd hk]
      rw [beq_iff_eq] at hd
      subst hd
      exact ⟨_, rfl⟩
    · rw [collapseNl_copy (Or.inr hk)]
      exact ⟨_, rfl⟩
  · rw [Bool.not_eq_true] at hd
    rw [collapseNl_copy (Or.inl hd)]
    exact ⟨_, rfl⟩

theorem drop_takeWhile_length (p : Char → Bool) (l : Str) :
    l.drop (l.takeWhile p).length = l.dropWhile p := by
  have h := List.takeWhile_append_dropWhile (p := p) (l := l)
  calc l.drop (l.takeWhile p).length
      = (l.takeWhile p ++ l.dropWhile p).drop (l.takeWhile p).length := by rw [h]
  _ = l.dropWhile p := List.drop_left ..

theorem dropWhile_head_not {p : Char → Bool} {l : Str} {c : Char} {t : Str}
    (h : l.dropWhile p = c :: t) : p c = false := by
  have := List.head?_dropWhile_not p l
  rw [h] at this
  simpa using this

theorem beq_symm_false {a b : Char} (h : (a == b) = false) : (b == a) = false := by
  cases hq : (b == a) with
  | false => rfl
  | true =>
    rw [beq_iff_eq] at hq
    rw [hq] at h
    simp at h

/-- Prefix matches of newline-free suffixes pass through the collapse. -/
theorem collapseNl_keep_begWith {m : Str} (hnl : ∀ ch ∈ m, (ch == '\n') = false) :
    ∀ (N : Nat) (z : Str), z.length ≤ N → ∀ s, s ∈ m.tails →
      begWith s (collapseNl z) = true → begWith s z = true := by
  intro N
  induction N with
  | zero =>
    intro z hz s hs h
    have : z = [] := List.eq_nil_of_length_eq_zero (Nat.le_zero.mp hz)
    subst this
    exact h
  | succ N ih =>
    intro z hz s hs h
    cases z with
    | nil => exact h
    | cons c r =>
      by_cases hc : (c == '\n') = true ∧ 2 ≤ (r.takeWhile (· == '\n')).length
      · rw [collapseNl_match hc.1 hc.2] at h
        cases s with
        | nil => rfl
        | cons x s' =>
          exfalso
          simp only [begWith, Bool.and_eq_true, beq_iff_eq] at h
          have hx : x ∈ m := by
            have hsub : (x :: s') ⊆ m := (List.mem_tails _ _ |>.mp hs).subset
            exact hsub (List.mem_cons_self x s')
          have := hnl x hx
          rw [h.1] at this
          simp at this
      · have hcopy : collapseNl (c :: r) = c :: collapseNl r := by
          refine collapseNl_copy ?_
          by_cases h1 : (c == '\n') = true
          · exact Or.inr (fun h2 => hc ⟨h1, h2⟩)
          · exact Or.inl (by rwa [Bool.not_eq_true] at h1)
        rw [hcopy] at h
        cases s with
        | nil => rfl
        | cons x s' =>
          simp only [begWith, Bool.and_eq_true] at h ⊢
          refine ⟨h.1, ?_⟩
          exact ih r (by simp only [List.length_cons] at hz; omega) s'
            (tails_tail hs rfl) h.2

/-- Absence of a newline-free token is preserved by the collapse. -/
theorem collapseNl_keep_noTok {m : Str} {mh : Char} {mt : Str} (hm : m = mh :: mt)
    (hnl : ∀ ch ∈ m, (ch == '\n') = false) :
    ∀ (N : Nat) (z : Str), z.length ≤ N → containsTok m z = false →
      containsTok m (collapseNl z) = false := by
  intro N
  induction N with
  | zero =>
    intro z hz h
    have : z = [] := List.eq_nil_of_length_eq_zero (Nat.le_zero.mp hz)
    subst this
    exact h
  | succ N ih =>
    intro z hz h
    cases z with
    | nil => exact h
    | cons c r =>
      have hmh : (mh == '\n') = false := by
        refine hnl mh ?_
        rw [hm]
        exact List.mem_cons_self mh mt
      have hr : containsTok m r = false := by
        simp only [containsTok, Bool.or_eq_false_iff] at h
        exact h.2
      by_cases hc : (c == '\n') = true ∧ 2 ≤ (r.takeWhile (· == '\n')).length
      · rw [collapseNl_match hc.1 hc.2]
        have ht2 : containsTok m (r.drop (r.takeWhile (· == '\n')).length) = false :=
          containsTok_drop_mono hr _
        have hrec : containsTok m
            (collapseNl (r.drop (r.takeWhile (· == '\n')).length)) = false := by
          refine ih _ ?_ ht2
          simp only [List.length_drop, List.length_cons] at hz ⊢
          omega
        have hbg1 : begWith m ('\n' :: '\n' ::
            collapseNl (r.drop (r.takeWhile (· == '\n')).length)) = false := by
          rw [hm]
          simp only [begWith]
          rw [show (mh == '\n') = false from hmh, Bool.false_and]
        have hbg2 : begWith m ('\n' ::
            collapseNl (r.drop (r.takeWhile (· == '\n')).length)) = false := by
          rw [hm]
          simp only [begWith]
          rw [show (mh == '\n') = false from hmh, Bool.false_and]
        simp only [containsTok, Bool.or_eq_false_iff]
        exact ⟨hbg1, hbg2, hrec⟩
      · have hcopy : collapseNl (c :: r) = c :: collapseNl r := by
          refine collapseNl_copy ?_
          by_cases h1 : (c == '\n') = true
          · exact Or.inr (fun h2 => hc ⟨h1, h2⟩)
          · exact Or.inl (by rwa [Bool.not_eq_true] at h1)
        rw [hcopy]
        have hrlen : r.length ≤ N := by simp only [List.length_cons] at hz; omega
        simp only [containsTok, Bool.or_eq_false_iff]
        refine ⟨?_, ih r hrlen hr⟩
        by_contra hq
        rw [Bool.not_eq_false, hm] at hq
        cases hbq : (mh == c) with
        | false =>
          simp only [begWith, hbq, Bool.false_and] at hq
          exact Bool.noConfusion hq
        | true =>
          simp only [begWith, hbq, Bool.true_and] at hq
          have hmt_tail : mt ∈ m.tails := by
            rw [hm, List.mem_tails]
            exact List.suffix_cons mh mt
          have hmtr : begWith mt r = true :=
            collapseNl_keep_begWith hnl N r hrlen mt hmt_tail hq
          have hcon : begWith m (c :: r) = true := by
            rw [hm]
            simp only [begWith, hbq, Bool.true_and]
            exact hmtr
          simp only [containsTok, Bool.or_eq_false_iff] at h
          rw [hcon] at h
          exact Bool.noConfusion h.1

/-- The collapse output never contains three consecutive newlines. -/
theorem collapseNl_noLong :
    ∀ (N : Nat) (z : Str), z.length ≤ N →
      containsTok ['\n', '\n', '\n'] (collapseNl z) = false := by
  intro N
  induction N with
  | zero =>
    intro z hz
    have : z = [] := List.eq_nil_of_length_eq_zero (Nat.le_zero.mp hz)
    subst this
    rfl
  | succ N ih =>
    intro z hz
    cases z with
    | nil => rfl
    | cons c r =>
      by_cases hc : (c == '\n') = true ∧ 2 ≤ (r.takeWhile (· == '\n')).length
      · rw [collapseNl_match hc.1 hc.2]
        have hdw : r.drop (r.takeWhile (· == '\n')).length =
            r.dropWhile (· == '\n') := drop_takeWhile_length _ r
        have hhead : begWith ['\n'] (collapseNl (r.drop (r.takeWhile (· == '\n')).length))
            = false := by
          rw [hdw]
          cases hrr : r.dropWhile (· == '\n') with
          | nil => rfl
          | cons d t =>
            have hd : (d == '\n') = false := by
              have h0 := dropWhile_head_not hrr
              simpa using h0
            obtain ⟨w, hw⟩ := collapseNl_head d t
            rw [hw, begWith_one_eq, beq_symm_false hd]
        have hrec : containsTok ['\n', '\n', '\n']
            (collapseNl (r.drop (r.takeWhile (· == '\n')).length)) = false := by
          refine ih _ ?_
          simp only [List.length_drop, List.length_cons] at hz ⊢
          omega
        simp only [containsTok, Bool.or_eq_false_iff]
        refine ⟨?_, ?_, hrec⟩
        · show ((('\n' : Char) == '\n') && (('\n' : Char) == '\n') &&
            begWith ['\n'] (collapseNl (r.drop (r.takeWhile (· == '\n')).length))) = false
          rw [hhead]
          simp
        · show ((('\n' : Char) == '\n') && begWith ['\n', '\n']
            (collapseNl (r.drop (r.takeWhile (· == '\n')).length))) = false
          cases hrr : r.dropWhile (· == '\n') with
          | nil =>
            rw [hdw, hrr]
            rfl
          | cons d t =>
            have hd : (d == '\n') = false := by
              have h0 := dropWhile_head_not hrr
              simpa using h0
            obtain ⟨w, hw⟩ := collapseNl_head d t
            rw [hdw, hrr, hw]
            rw [begWith_two_eq, beq_symm_false hd]
            simp
      · have hcopy : collapseNl (c :: r) = c :: collapseNl r := by
          refine collapseNl_copy ?_
          by_cases h1 : (c == '\n') = true
          · exact Or.inr (fun h2 => hc ⟨h1, h2⟩)
          · exact Or.inl (by rwa [Bool.not_eq_true] at h1)
        rw [hcopy]
        have hrlen : r.length ≤ N := by simp only [List.length_cons] at hz; omega
        simp only [containsTok, Bool.or_eq_false_iff]
        refine ⟨?_, ih r hrlen⟩
        by_cases hcnl : (c == '\n') = true
        · have hk : ¬ 2 ≤ (r.takeWhile (· == '\n')).length := fun h2 => hc ⟨hcnl, h2⟩
          rw [beq_iff_eq] at hcnl
          subst hcnl
          show ((('\n' : Char) == '\n') && begWith ['\n', '\n'] (collapseNl r)) = false
          cases r with
          | nil => rfl
          | cons d r2 =>
            by_cases hd : (d == '\n') = true
            · have htw : r2.takeWhile (· == '\n') = [] := by
                by_contra hq
                cases htw2 : r2.takeWhile (· == '\n') with
                | nil => exact hq htw2
                | cons e t =>
                  have : (d :: r2).takeWhile (· == '\n') = d :: r2.takeWhile (· == '\n') := by
                    rw [List.takeWhile_cons, if_pos hd]
                  rw [htw2] at this
                  apply hk
                  rw [this]
                  simp
              have hk2 : ¬ 2 ≤ (r2.takeWhile (· == '\n')).length := by
                rw [htw]
                simp
              rw [collapseNl_copy (Or.inr hk2)]
              rw [beq_iff_eq] at hd
              subst hd
              show ((('\n' : Char) == '\n') && ((('\n' : Char) == '\n') &&
                begWith ['\n'] (collapseNl r2))) = false
              cases r2 with
              | nil => rfl
              | cons e r3 =>
                have he : (e == '\n') = false := by
                  by_contra hq
                  rw [Bool.not_eq_false] at hq
                  have hne : (e :: r3).takeWhile (· == '\n') ≠ [] := by
                    rw [List.takeWhile_cons, if_pos hq]
                    simp
                  exact hne htw
                obtain ⟨w, hw⟩ := collapseNl_head e r3
                rw [hw, begWith_one_eq, beq_symm_false he]
                simp
            · rw [Bool.not_eq_true] at hd
              rw [collapseNl_copy (Or.inl hd)]
              rw [begWith_two_eq, beq_symm_false hd]
              simp
        · rw [Bool.not_eq_true] at hcnl
          show ((('\n' : Char) == c) && begWith ['\n', '\n'] (collapseNl r)) = false
          rw [beq_symm_false hcnl]
          simp

/-! # Scanning across a whitespace-or-end boundary

The name scanner's behaviour on `a ++ z` depends on `z` only through whether
`z` is empty or starts with whitespace: either way, no match can extend into
`z`, and a match ending exactly at the boundary sees a right word boundary. -/

theorem dropWhile_length_le (p : Char → Bool) (l : Str) :
    (l.dropWhile p).length ≤ l.length := by
  rw [← drop_takeWhile_length p l]
  simp [List.length_drop]

theorem caselessBeg_ws_mid {d : Char} (hd : pyIsSpace d = true) :
    ∀ (a n t : Str), (∀ ch ∈ n, ch.isUpper = true) → a.length < n.length →
      caselessBeg n (a ++ d :: t) = false := by
  intro a
  induction a with
  | nil =>
    intro n t hup hlt
    cases n with
    | nil => simp at hlt
    | cons n0 n1 =>
      have h0 := upper_lowEq_ws (hup n0 (List.mem_cons_self n0 n1)) hd
      show (lowEq n0 d && caselessBeg n1 t) = false
      rw [h0, Bool.false_and]
  | cons x a0 ih =>
    intro n t hup hlt
    cases n with
    | nil => simp at hlt
    | cons n0 n1 =>
      show (lowEq n0 x && caselessBeg n1 (a0 ++ d :: t)) = false
      rw [ih n1 t (fun ch hch => hup ch (List.mem_cons_of_mem _ hch))
        (by simp only [List.length_cons] at hlt; omega), Bool.and_false]

theorem nameHit_drop_nil {n : Str} {pw : Bool} {c : Char} {r : Str}
    (hd : (c :: r).drop n.length = []) :
    nameHit n pw (c :: r) =
      (0 < n.length && caselessBeg n (c :: r) && (pw != isWordChar c) &&
        isWordChar (n.getLastD ' ')) := by
  unfold nameHit
  rw [hd]

theorem nameHit_drop_cons {n : Str} {pw : Bool} {c d : Char} {r rest : Str}
    (hd : (c :: r).drop n.length = d :: rest) :
    nameHit n pw (c :: r) =
      (0 < n.length && caselessBeg n (c :: r) && (pw != isWordChar c) &&
        (isWordChar (n.getLastD ' ') != isWordChar d)) := by
  unfold nameHit
  rw [hd]

/-- `nameHit` on a cons cell, with the boundary branch expressed through the
head (defaulting to a space) of the text after the matched window. -/
theorem nameHit_headD (n : Str) (pw : Bool) (c : Char) (r : Str) :
    nameHit n pw (c :: r) =
      (0 < n.length && caselessBeg n (c :: r) && (pw != isWordChar c) &&
        (isWordChar (n.getLastD ' ') !=
          isWordChar (((c :: r).drop n.length).headD ' '))) := by
  cases hd : (c :: r).drop n.length with
  | nil =>
    rw [nameHit_drop_nil hd]
    have h2 : isWordChar (([] : Str).headD ' ') = false := by decide
    rw [h2, Bool.bne_false]
  | cons d rest =>
    rw [nameHit_drop_cons hd]
    rfl

/-- The hit test on `a ++ z` is insensitive to replacing `z` by another
empty-or-whitespace-headed continuation. -/
theorem nameHit_ws_pair {n : Str} (hn : n ≠ []) (hup : ∀ ch ∈ n, ch.isUpper = true)
    {z z' : Str}
    (hz : z = [] ∨ ∃ d t, z = d :: t ∧ pyIsSpace d = true)
    (hz' : z' = [] ∨ ∃ d t, z' = d :: t ∧ pyIsSpace d = true) :
    ∀ (a : Str) (pw : Bool), nameHit n pw (a ++ z) = nameHit n pw (a ++ z') := by
  intro a pw
  cases a with
  | nil =>
    have hval : ∀ (u : Str), (u = [] ∨ ∃ d t, u = d :: t ∧ pyIsSpace d = true) →
        nameHit n pw u = false := by
      intro u hu
      rcases hu with rfl | ⟨d, t, rfl, hd2⟩
      · exact nameHit_nil n pw
      · exact nameHit_ws hn hup hd2 t pw
    simp only [List.nil_append]
    rw [hval z hz, hval z' hz']
  | cons c a0 =>
    by_cases hlen : n.length ≤ (c :: a0).length
    · have hws : ∀ (u : Str), (u = [] ∨ ∃ d t, u = d :: t ∧ pyIsSpace d = true) →
          isWordChar (u.headD ' ') = false := by
        intro u hu
        rcases hu with rfl | ⟨d, t, rfl, hd2⟩
        · decide
        · exact pyIsSpace_not_word hd2
      have hdz : ((c :: a0) ++ z).drop n.length = (c :: a0).drop n.length ++ z :=
        List.drop_append_of_le_length hlen
      have hdz' : ((c :: a0) ++ z').drop n.length = (c :: a0).drop n.length ++ z' :=
        List.drop_append_of_le_length hlen
      have hhead : isWordChar ((((c :: a0) ++ z).drop n.length).headD ' ') =
          isWordChar ((((c :: a0) ++ z').drop n.length).headD ' ') := by
        rw [hdz, hdz']
        cases hrest : (c :: a0).drop n.length with
        | nil =>
          simp only [List.nil_append]
          rw [hws z hz, hws z' hz']
        | cons e rest => rfl
      have hcb : caselessBeg n ((c :: a0) ++ z) = caselessBeg n ((c :: a0) ++ z') := by
        rw [caselessBeg_pad z hlen, caselessBeg_pad z' hlen]
      show nameHit n pw (c :: (a0 ++ z)) = nameHit n pw (c :: (a0 ++ z'))
      rw [nameHit_headD, nameHit_headD]
      simp only [List.cons_append] at hcb hhead
      rw [hcb, hhead]
    · push_neg at hlen
      have hfz : caselessBeg n ((c :: a0) ++ z) = false := by
        rcases hz with rfl | ⟨d, t, rfl, hd2⟩
        · rw [List.append_nil]
          by_contra hq
          rw [Bool.not_eq_false] at hq
          have := caselessBeg_le_length hq
          omega
        · exact caselessBeg_ws_mid hd2 (c :: a0) n t hup hlen
      have hfz' : caselessBeg n ((c :: a0) ++ z') = false := by
        rcases hz' with rfl | ⟨d, t, rfl, hd2⟩
        · rw [List.append_nil]
          by_contra hq
          rw [Bool.not_eq_false] at hq
          have := caselessBeg_le_length hq
          omega
        · exact caselessBeg_ws_mid hd2 (c :: a0) n t hup hlen
      show nameHit n pw (c :: (a0 ++ z)) = nameHit n pw (c :: (a0 ++ z'))
      rw [nameHit_headD, nameHit_headD]
      simp only [List.cons_append] at hfz hfz'
      rw [hfz, hfz']
      simp

theorem nameGo_length {n : Str} (hup : ∀ ch ∈ n, ch.isUpper = true) (l : Str) (pw : Bool) :
    (nameGo n pw 0 l).length = l.length := by
  have h := congrArg List.length (nameGo_lower hup l.length l (Nat.le_refl _) pw)
  simpa using h

/-- Lockstep lemma: scanning `a ++ z` emits a fixed rewritten block `X` for
the `a` part (independent of the continuation) and then scans `z` from a
fixed word status, provided the continuation is empty or whitespace-headed. -/
theorem nameGo_lockstep {n : Str} (hn : n ≠ []) (hup : ∀ ch ∈ n, ch.isUpper = true)
    {z z' : Str}
    (hz : z = [] ∨ ∃ d t, z = d :: t ∧ pyIsSpace d = true)
    (hz' : z' = [] ∨ ∃ d t, z' = d :: t ∧ pyIsSpace d = true) :
    ∀ (N : Nat) (a : Str), a.length ≤ N → ∀ pw : Bool,
      ∃ (X : Str) (pw2 : Bool),
        nameGo n pw 0 (a ++ z) = X ++ nameGo n pw2 0 z ∧
        nameGo n pw 0 (a ++ z') = X ++ nameGo n pw2 0 z' ∧
        X.length = a.length := by
  intro N
  induction N with
  | zero =>
    intro a ha pw
    have : a = [] := List.eq_nil_of_length_eq_zero (Nat.le_zero.mp ha)
    subst this
    exact ⟨[], pw, by simp, by simp, rfl⟩
  | succ N ih =>
    intro a ha pw
    cases a with
    | nil => exact ⟨[], pw, by simp, by simp, rfl⟩
    | cons c a0 =>
      have hh := nameHit_ws_pair hn hup hz hz' (c :: a0) pw
      by_cases hit : nameHit n pw ((c :: a0) ++ z) = true
      · have hcb := (nameHit_parts' hit).2.1
        have hlen : n.length ≤ (c :: a0).length := by
          by_contra hq
          push_neg at hq
          rcases hz with hzz | ⟨d, t, hzz, hd2⟩
          · rw [hzz, List.append_nil] at hcb
            have := caselessBeg_le_length hcb
            omega
          · rw [hzz, caselessBeg_ws_mid hd2 (c :: a0) n t hup hq] at hcb
            exact Bool.noConfusion hcb
        have hit2 : nameHit n pw ((c :: a0) ++ z') = true := by
          rw [← hh]
          exact hit
        have hdz : ((c :: a0) ++ z).drop n.length = (c :: a0).drop n.length ++ z :=
          List.drop_append_of_le_length hlen
        have hdz' : ((c :: a0) ++ z').drop n.length = (c :: a0).drop n.length ++ z' :=
          List.drop_append_of_le_length hlen
        have hnpos : 0 < n.length := List.length_pos.mpr hn
        obtain ⟨X2, pw2, f1, f2, flen⟩ := ih ((c :: a0).drop n.length)
          (by simp only [List.length_drop, List.length_cons] at ha ⊢; omega) true
        refine ⟨n ++ X2, pw2, ?_, ?_, ?_⟩
        · rw [nameGo_match' hup hit, hdz, f1, List.append_assoc]
        · rw [nameGo_match' hup hit2, hdz', f2, List.append_assoc]
        · have h1 : X2.length = (c :: a0).length - n.length := by
            rw [flen]
            simp [List.length_drop]
          simp only [List.length_append, h1]
          simp only [List.length_cons] at hlen ⊢
          omega
      · rw [Bool.not_eq_true] at hit
        have hit2 : nameHit n pw ((c :: a0) ++ z') = false := by
          rw [← hh]
          exact hit
        have hitc : nameHit n pw (c :: (a0 ++ z)) = false := by
          simpa only [List.cons_append] using hit
        have hitc2 : nameHit n pw (c :: (a0 ++ z')) = false := by
          simpa only [List.cons_append] using hit2
        obtain ⟨X2, pw2, f1, f2, flen⟩ := ih a0
          (by simp only [List.length_cons] at ha; omega) (isWordChar c)
        refine ⟨c :: X2, pw2, ?_, ?_, ?_⟩
        · show nameGo n pw 0 (c :: (a0 ++ z)) = (c :: X2) ++ nameGo n pw2 0 z
          rw [nameGo_noMatch hitc, f1, List.cons_append]
        · show nameGo n pw 0 (c :: (a0 ++ z')) = (c :: X2) ++ nameGo n pw2 0 z'
          rw [nameGo_noMatch hitc2, f2, List.cons_append]
        · simp only [List.length_cons, flen]

/-! # Fixed points of the name scanner survive the cleaning passes -/

theorem collapseNl_append_nlFree {a : Str} (ha : ∀ ch ∈ a, (ch == '\n') = false)
    (z : Str) : collapseNl (a ++ z) = a ++ collapseNl z := by
  induction a with
  | nil => rfl
  | cons c a0 ih =>
    have hc : (c == '\n') = false := ha c (List.mem_cons_self c a0)
    show collapseNl (c :: (a0 ++ z)) = c :: (a0 ++ collapseNl z)
    rw [collapseNl_copy (Or.inl hc), ih (fun ch hch => ha ch (List.mem_cons_of_mem _ hch))]

/-- A string fixed by the name scanner stays fixed after newline collapsing. -/
theorem nameGo_collapse_fix {n : Str} (hn : n ≠ []) (hup : ∀ ch ∈ n, ch.isUpper = true) :
    ∀ (N : Nat) (l : Str), l.length ≤ N → ∀ pw : Bool, nameGo n pw 0 l = l →
      nameGo n pw 0 (collapseNl l) = collapseNl l := by
  have hnlws : pyIsSpace '\n' = true := by decide
  have hnlw : isWordChar '\n' = false := by decide
  have hstep : ∀ (u : Str) (pb : Bool),
      nameGo n pb 0 ('\n' :: u) = '\n' :: nameGo n false 0 u := by
    intro u pb
    rw [nameGo_noMatch (nameHit_ws hn hup hnlws u pb), hnlw]
  intro N
  induction N with
  | zero =>
    intro l hl pw _
    have : l = [] := List.eq_nil_of_length_eq_zero (Nat.le_zero.mp hl)
    subst this
    rfl
  | succ N ih =>
    intro l hl pw hfix
    cases l with
    | nil => rfl
    | cons c r =>
      by_cases hcn : (c == '\n') = true
      · rw [beq_iff_eq] at hcn
        subst hcn
        have hfr : nameGo n false 0 r = r := by
          have h0 := hfix
          rw [hstep r pw] at h0
          exact List.tail_eq_of_cons_eq h0
        by_cases hk : 2 ≤ (r.takeWhile (· == '\n')).length
        · have hrun_ws : ∀ ch ∈ r.takeWhile (· == '\n'), pyIsSpace ch = true := by
            intro ch hch
            have h1 := List.mem_takeWhile_imp hch
            have h2 : ch = '\n' := by simpa using h1
            rw [h2]
            exact hnlws
          have hrun_ne : r.takeWhile (· == '\n') ≠ [] := by
            intro hq
            rw [hq] at hk
            simp at hk
          have hfr2 : nameGo n false 0 (r.dropWhile (· == '\n')) =
              r.dropWhile (· == '\n') := by
            have hpeel := nameGo_ws_peel hn hup (r.takeWhile (· == '\n'))
              (r.dropWhile (· == '\n')) false hrun_ws hrun_ne
            rw [List.takeWhile_append_dropWhile] at hpeel
            rw [hfr] at hpeel
            have h3 : r.takeWhile (· == '\n') ++ r.dropWhile (· == '\n') =
                r.takeWhile (· == '\n') ++ nameGo n false 0 (r.dropWhile (· == '\n')) := by
              rw [List.takeWhile_append_dropWhile]
              exact hpeel
            exact (List.append_cancel_left h3).symm
          have hb : (r.dropWhile (· == '\n')).length ≤ N :=
            le_trans (dropWhile_length_le _ r)
              (by simp only [List.length_cons] at hl; omega)
          rw [collapseNl_match (by decide) hk, drop_takeWhile_length]
          rw [hstep, hstep, ih (r.dropWhile (· == '\n')) hb false hfr2]
        · rw [collapseNl_copy (Or.inr hk)]
          rw [hstep, ih r (by simp only [List.length_cons] at hl; omega) false hfr]
      · rw [Bool.not_eq_true] at hcn
        have hanl : ∀ ch ∈ (c :: r.takeWhile (· != '\n')), (ch == '\n') = false := by
          intro ch hch
          rcases List.mem_cons.mp hch with h1 | h1
          · rw [h1]
            exact hcn
          · have h2 := List.mem_takeWhile_imp h1
            simpa [bne] using h2
        have hsplit : (c :: r.takeWhile (· != '\n')) ++ r.dropWhile (· != '\n') = c :: r := by
          rw [List.cons_append, List.takeWhile_append_dropWhile]
        have hzz : r.dropWhile (· != '\n') = [] ∨
            ∃ d t, r.dropWhile (· != '\n') = d :: t ∧ pyIsSpace d = true := by
          cases hzc : r.dropWhile (· != '\n') with
          | nil => exact Or.inl rfl
          | cons d t =>
            refine Or.inr ⟨d, t, rfl, ?_⟩
            have h0 := dropWhile_head_not hzc
            have hdnl : d = '\n' := by simpa [bne] using h0
            rw [hdnl]
            exact hnlws
        have hzz2 : collapseNl (r.dropWhile (· != '\n')) = [] ∨
            ∃ d t, collapseNl (r.dropWhile (· != '\n')) = d :: t ∧ pyIsSpace d = true := by
          rcases hzz with h1 | ⟨d, t, h1, hd2⟩
          · rw [h1]
            exact Or.inl rfl
          · rw [h1]
            obtain ⟨w, hw⟩ := collapseNl_head d t
            rw [hw]
            exact Or.inr ⟨d, w, rfl, hd2⟩
        obtain ⟨X, pw2, f1, f2, flen⟩ := nameGo_lockstep hn hup hzz hzz2
          (c :: r.takeWhile (· != '\n')).length (c :: r.takeWhile (· != '\n'))
          (Nat.le_refl _) pw
        have hfix2 : nameGo n pw 0
            ((c :: r.takeWhile (· != '\n')) ++ r.dropWhile (· != '\n')) =
            (c :: r.takeWhile (· != '\n')) ++ r.dropWhile (· != '\n') := by
          rw [hsplit]
          exact hfix
        rw [f1] at hfix2
        obtain ⟨hXa, hzfix⟩ := List.append_inj hfix2 flen
        have hbz : (r.dropWhile (· != '\n')).length ≤ N :=
          le_trans (dropWhile_length_le _ r)
            (by simp only [List.length_cons] at hl; omega)
        have hIH := ih (r.dropWhile (· != '\n')) hbz pw2 hzfix
        calc nameGo n pw 0 (collapseNl (c :: r))
            = nameGo n pw 0
              ((c :: r.takeWhile (· != '\n')) ++ collapseNl (r.dropWhile (· != '\n'))) := by
              rw [← hsplit, collapseNl_append_nlFree hanl]
          _ = X ++ nameGo n pw2 0 (collapseNl (r.dropWhile (· != '\n'))) := f2
          _ = (c :: r.takeWhile (· != '\n')) ++ collapseNl (r.dropWhile (· != '\n')) := by
              rw [hXa, hIH]
          _ = collapseNl (c :: r) := by
              rw [← collapseNl_append_nlFree hanl, hsplit]

/-! # Structure of `dropTrailWs` and `pyStrip` -/

theorem dropTrailWs_cons_nil {c : Char} {r : Str} (h : dropTrailWs r = []) :
    dropTrailWs (c :: r) = if pyIsSpace c then [] else [c] := by
  unfold dropTrailWs
  rw [h]

theorem dropTrailWs_cons2 {c d : Char} {r r2 : Str} (h : dropTrailWs r = d :: r2) :
    dropTrailWs (c :: r) = c :: d :: r2 := by
  unfold dropTrailWs
  rw [h]

/-- `dropTrailWs` removes an all-whitespace suffix. -/
theorem dropTrailWs_decomp : ∀ l : Str,
    ∃ v, l = dropTrailWs l ++ v ∧ ∀ ch ∈ v, pyIsSpace ch = true := by
  intro l
  induction l with
  | nil => exact ⟨[], rfl, by simp⟩
  | cons c r ih =>
    obtain ⟨v, hv, hws⟩ := ih
    cases hd : dropTrailWs r with
    | nil =>
      have hrv : r = v := by
        rw [hd] at hv
        simpa using hv
      by_cases hc : pyIsSpace c = true
      · refine ⟨c :: r, ?_, ?_⟩
        · rw [dropTrailWs_cons_nil hd, if_pos hc, List.nil_append]
        · intro ch hch
          rcases List.mem_cons.mp hch with h1 | h1
          · rw [h1]
            exact hc
          · exact hws ch (hrv ▸ h1)
      · refine ⟨v, ?_, hws⟩
        rw [dropTrailWs_cons_nil hd, if_neg hc]
        show c :: r = [c] ++ v
        rw [List.cons_append, List.nil_append, hrv]
    | cons d r2 =>
      refine ⟨v, ?_, hws⟩
      rw [dropTrailWs_cons2 hd]
      show c :: r = c :: (d :: r2 ++ v)
      rw [← hd, ← hv]

theorem dropTrailWs_idem : ∀ l : Str, dropTrailWs (dropTrailWs l) = dropTrailWs l := by
  intro l
  induction l with
  | nil => rfl
  | cons c r ih =>
    cases hd : dropTrailWs r with
    | nil =>
      rw [dropTrailWs_cons_nil hd]
      by_cases hc : pyIsSpace c = true
      · rw [if_pos hc]
        rfl
      · rw [if_neg hc]
        rw [dropTrailWs_cons_nil (show dropTrailWs [] = [] from rfl), if_neg hc]
    | cons d r2 =>
      rw [dropTrailWs_cons2 hd]
      rw [hd] at ih
      rw [dropTrailWs_cons2 ih]

theorem dropTrailWs_head (c : Char) (r : Str) :
    dropTrailWs (c :: r) = [] ∨ ∃ w, dropTrailWs (c :: r) = c :: w := by
  cases hd : dropTrailWs r with
  | nil =>
    rw [dropTrailWs_cons_nil hd]
    by_cases hc : pyIsSpace c = true
    · rw [if_pos hc]
      exact Or.inl rfl
    · rw [if_neg hc]
      exact Or.inr ⟨[], rfl⟩
  | cons d r2 =>
    rw [dropTrailWs_cons2 hd]
    exact Or.inr ⟨d :: r2, rfl⟩

theorem pyStrip_idem (l : Str) : pyStrip (pyStrip l) = pyStrip l := by
  show dropTrailWs ((dropTrailWs (l.dropWhile pyIsSpace)).dropWhile pyIsSpace) =
    dropTrailWs (l.dropWhile pyIsSpace)
  cases ht : l.dropWhile pyIsSpace with
  | nil => rfl
  | cons c r =>
    have hc : pyIsSpace c = false := by
      have h0 := dropWhile_head_not ht
      simpa using h0
    rcases dropTrailWs_head c r with hdt | ⟨w, hdt⟩
    · rw [hdt]
      rfl
    · rw [hdt]
      have hdw : (c :: w).dropWhile pyIsSpace = c :: w := by
        rw [List.dropWhile_cons, hc]
        simp
      rw [hdw, ← hdt, dropTrailWs_idem]

theorem pyStrip_keep_noTok {m l : Str} (h : containsTok m l = false) :
    containsTok m (pyStrip l) = false := by
  have h1 : containsTok m (l.dropWhile pyIsSpace) = false := by
    rw [← drop_takeWhile_length pyIsSpace l]
    exact containsTok_drop_mono h _
  obtain ⟨v, hv, -⟩ := dropTrailWs_decomp (l.dropWhile pyIsSpace)
  by_contra hq
  rw [Bool.not_eq_false] at hq
  have hq2 : containsTok m (dropTrailWs (l.dropWhile pyIsSpace)) = true := hq
  have : containsTok m (l.dropWhile pyIsSpace) = true := by
    rw [hv]
    exact containsTok_append_left _ hq2
  rw [this] at h1
  exact Bool.noConfusion h1

/-- A string fixed by the name scanner stays fixed after stripping. -/
theorem nameGo_pyStrip_fix {n : Str} (hn : n ≠ []) (hup : ∀ ch ∈ n, ch.isUpper = true)
    (l : Str) (hfix : nameGo n false 0 l = l) :
    nameGo n false 0 (pyStrip l) = pyStrip l := by
  have hsplit : l.takeWhile pyIsSpace ++ l.dropWhile pyIsSpace = l :=
    List.takeWhile_append_dropWhile pyIsSpace l
  have hfixt : nameGo n false 0 (l.dropWhile pyIsSpace) = l.dropWhile pyIsSpace := by
    cases hw : l.takeWhile pyIsSpace with
    | nil =>
      rw [← hsplit, hw, List.nil_append] at hfix
      exact hfix
    | cons d w0 =>
      have hws : ∀ ch ∈ l.takeWhile pyIsSpace, pyIsSpace ch = true :=
        fun ch hch => List.mem_takeWhile_imp hch
      have hpeel := nameGo_ws_peel hn hup (l.takeWhile pyIsSpace)
        (l.dropWhile pyIsSpace) false hws (by rw [hw]; simp)
      rw [hsplit, hfix] at hpeel
      have h3 : l.takeWhile pyIsSpace ++ l.dropWhile pyIsSpace =
          l.takeWhile pyIsSpace ++ nameGo n false 0 (l.dropWhile pyIsSpace) := by
        rw [hsplit]
        exact hpeel
      exact (List.append_cancel_left h3).symm
  obtain ⟨v, hv, hvws⟩ := dropTrailWs_decomp (l.dropWhile pyIsSpace)
  have hvz : v = [] ∨ ∃ d t, v = d :: t ∧ pyIsSpace d = true := by
    cases hvc : v with
    | nil => exact Or.inl rfl
    | cons d t => exact Or.inr ⟨d, t, rfl, hvws d (by rw [hvc]; simp)⟩
  have hnilz : ([] : Str) = [] ∨ ∃ d t, ([] : Str) = d :: t ∧ pyIsSpace d = true :=
    Or.inl rfl
  obtain ⟨X, pw2, f1, f2, flen⟩ := nameGo_lockstep hn hup hvz hnilz
    (dropTrailWs (l.dropWhile pyIsSpace)).length (dropTrailWs (l.dropWhile pyIsSpace))
    (Nat.le_refl _) false
  have hfc : nameGo n false 0 (dropTrailWs (l.dropWhile pyIsSpace) ++ v) =
      dropTrailWs (l.dropWhile pyIsSpace) ++ v := by
    rw [← hv]
    exact hfixt
  rw [f1] at hfc
  obtain ⟨hXa, -⟩ := List.append_inj hfc flen
  rw [List.append_nil] at f2
  rw [show nameGo n pw2 0 ([] : Str) = [] from rfl, List.append_nil, hXa] at f2
  exact f2

/-! # Identity of the cleaning passes on already-clean text -/

theorem takeWhile_two {p : Char → Bool} {r : Str}
    (h : 2 ≤ (r.takeWhile p).length) :
    ∃ x y t, r = x :: y :: t ∧ p x = true ∧ p y = true := by
  cases r with
  | nil => simp at h
  | cons x r1 =>
    by_cases hx : p x = true
    · cases r1 with
      | nil =>
        rw [List.takeWhile_cons, if_pos hx] at h
        simp at h
      | cons y t =>
        by_cases hy : p y = true
        · exact ⟨x, y, t, rfl, hx, hy⟩
        · rw [List.takeWhile_cons, if_pos hx, List.takeWhile_cons, if_neg hy] at h
          simp at h
    · rw [List.takeWhile_cons, if_neg hx] at h
      simp at h

/-- Without a three-newline run, the collapse changes nothing. -/
theorem collapseNl_id : ∀ (N : Nat) (l : Str), l.length ≤ N →
    containsTok ['\n', '\n', '\n'] l = false → collapseNl l = l := by
  intro N
  induction N with
  | zero =>
    intro l hl _
    have : l = [] := List.eq_nil_of_length_eq_zero (Nat.le_zero.mp hl)
    subst this
    rfl
  | succ N ih =>
    intro l hl h
    cases l with
    | nil => rfl
    | cons c r =>
      have hr : containsTok ['\n', '\n', '\n'] r = false := by
        simp only [containsTok, Bool.or_eq_false_iff] at h
        exact h.2
      by_cases hc : (c == '\n') = true ∧ 2 ≤ (r.takeWhile (· == '\n')).length
      · exfalso
        obtain ⟨hc1, hc2⟩ := hc
        obtain ⟨x, y, t, hre, hx, hy⟩ := takeWhile_two hc2
        rw [beq_iff_eq] at hc1
        have hx2 : x = '\n' := by simpa using hx
        have hy2 : y = '\n' := by simpa using hy
        subst hc1
        subst hx2
        subst hy2
        have hb : begWith ['\n', '\n', '\n'] ('\n' :: r) = true := by
          rw [hre]
          simp [begWith]
        simp only [containsTok, Bool.or_eq_false_iff] at h
        rw [hb] at h
        exact Bool.noConfusion h.1
      · have hcopy : collapseNl (c :: r) = c :: collapseNl r := by
          refine collapseNl_copy ?_
          by_cases h1 : (c == '\n') = true
          · exact Or.inr (fun h2 => hc ⟨h1, h2⟩)
          · exact Or.inl (by rwa [Bool.not_eq_true] at h1)
        rw [hcopy, ih r (by simp only [List.length_cons] at hl; omega) hr]

theorem begWith_trunc {u w l : Str} (h : begWith (u ++ w) l = true) :
    begWith u l = true := by
  induction u generalizing l with
  | nil => rfl
  | cons a u0 ih =>
    cases l with
    | nil => simp [begWith] at h
    | cons b l0 =>
      simp only [List.cons_append, begWith, Bool.and_eq_true] at h ⊢
      exact ⟨h.1, ih h.2⟩

/-- Without any triple backtick, fence stripping changes nothing. -/
theorem stripFences_id : ∀ (l : Str), containsTok fence3 l = false →
    stripFences l = l := by
  intro l
  induction l with
  | nil => intro _; rfl
  | cons c r ih =>
    intro h
    simp only [containsTok, Bool.or_eq_false_iff] at h
    have h3 : begWith fence3 (c :: r) = false := h.1
    have hmd : begWith fenceMd (c :: r) = false := by
      by_contra hq
      rw [Bool.not_eq_false] at hq
      have h4 : begWith fence3 (c :: r) = true :=
        begWith_trunc (show begWith (fence3 ++ "markdown".data) (c :: r) = true from hq)
      rw [h4] at h3
      exact Bool.noConfusion h3
    show stripFencesGo 0 (c :: r) = c :: r
    rw [stripFencesGo_cons, hmd, h3]
    simp only [Bool.false_eq_true, if_false]
    show c :: stripFences r = c :: r
    rw [ih h.2]

theorem sceneSubGo_cons (c : Char) (r : Str) :
    sceneSubGo 0 (c :: r) =
      if begWith sceneStart (c :: r) then sceneSubGo (sceneStart.length - 1) r
      else if begWith sceneEnd (c :: r) then sceneSubGo (sceneEnd.length - 1) r
      else c :: sceneSubGo 0 r := rfl

/-- Without scene markers, marker removal changes nothing. -/
theorem sceneSub_id : ∀ (l : Str), containsTok sceneStart l = false →
    containsTok sceneEnd l = false → sceneSub l = l := by
  intro l
  induction l with
  | nil => intro _ _; rfl
  | cons c r ih =>
    intro hS hE
    simp only [containsTok, Bool.or_eq_false_iff] at hS hE
    show sceneSubGo 0 (c :: r) = c :: r
    rw [sceneSubGo_cons, hS.1, hE.1]
    simp only [Bool.false_eq_true, if_false]
    show c :: sceneSub r = c :: r
    rw [ih hS.2 hE.2]

/-- C7 (counterexample): the post-decode cleaning transform is not idempotent
on every input.  On the input `"hou```se"` the first pass's backtick stripping
glues the fragments into the word `"house"`, which only the second pass's
character-name normalization then rewrites to the canonical `"HOUSE"`. -/
theorem C7_counterexample :
    post_decode_clean (post_decode_clean "hou```se".data) ≠
      post_decode_clean "hou```se".data := by
  decide

/-- C7 (amended): the post-decode cleaning transform (character-name
normalization, residual backtick stripping, scene-marker removal, newline
collapsing, trimming) is idempotent on every input that contains no triple
backtick and no `[SCENE START]`/`[SCENE END]` marker.  (Without these
hypotheses the claim fails: stripping a fence or marker can glue surrounding
text into a new name or marker occurrence that only a second pass rewrites.) -/
theorem C7_idem_amended (x : Str)
    (h1 : containsTok fence3 x = false)
    (h2 : containsTok sceneStart x = false)
    (h3 : containsTok sceneEnd x = false) :
    post_decode_clean (post_decode_clean x) = post_decode_clean x := by
  have hokL : ∀ n ∈ character_names, n ≠ [] ∧ ∀ ch ∈ n, ch.isUpper = true := by decide
  have hpair : character_names.Pairwise (fun a b => a.map pyLower ≠ b.map pyLower) := by
    decide
  have hmf : fence3 = btChar :: [btChar, btChar] := rfl
  have hmS : sceneStart = '[' :: "SCENE START]".data := by decide
  have hmE : sceneEnd = '[' :: "SCENE END]".data := by decide
  have hLf : ∀ n ∈ character_names, (∀ ch ∈ n, ch.isUpper = true) ∧
      (∀ s ∈ fence3.tails, s = [] ∨ (begWith s n = false ∧ begWith n s = false)) ∧
      (∀ ch ∈ n, (btChar == ch) = false) := by decide
  have hLS : ∀ n ∈ character_names, (∀ ch ∈ n, ch.isUpper = true) ∧
      (∀ s ∈ sceneStart.tails, s = [] ∨ (begWith s n = false ∧ begWith n s = false)) ∧
      (∀ ch ∈ n, ('[' == ch) = false) := by decide
  have hLE : ∀ n ∈ character_names, (∀ ch ∈ n, ch.isUpper = true) ∧
      (∀ s ∈ sceneEnd.tails, s = [] ∨ (begWith s n = false ∧ begWith n s = false)) ∧
      (∀ ch ∈ n, ('[' == ch) = false) := by decide
  have hA1 : containsTok fence3 (normalize_character_names x) = false := by
    show containsTok fence3 (character_names.foldl (fun t n => nameGo n false 0 t) x) = false
    exact foldNames_keep_noTok character_names hmf hLf x h1
  have hA2 : containsTok sceneStart (normalize_character_names x) = false := by
    show containsTok sceneStart
      (character_names.foldl (fun t n => nameGo n false 0 t) x) = false
    exact foldNames_keep_noTok character_names hmS hLS x h2
  have hA3 : containsTok sceneEnd (normalize_character_names x) = false := by
    show containsTok sceneEnd
      (character_names.foldl (fun t n => nameGo n false 0 t) x) = false
    exact foldNames_keep_noTok character_names hmE hLE x h3
  have hfirst : post_decode_clean x =
      pyStrip (collapseNl (normalize_character_names x)) := by
    show pyStrip (collapseNl (sceneSub (stripFences (normalize_character_names x)))) = _
    rw [stripFences_id _ hA1, sceneSub_id _ hA2 hA3]
  have hB1 : containsTok fence3
      (pyStrip (collapseNl (normalize_character_names x))) = false :=
    pyStrip_keep_noTok (collapseNl_keep_noTok hmf (by decide)
      (normalize_character_names x).length (normalize_character_names x)
      (Nat.le_refl _) hA1)
  have hB2 : containsTok sceneStart
      (pyStrip (collapseNl (normalize_character_names x))) = false :=
    pyStrip_keep_noTok (collapseNl_keep_noTok hmS (by decide)
      (normalize_character_names x).length (normalize_character_names x)
      (Nat.le_refl _) hA2)
  have hB3 : containsTok sceneEnd
      (pyStrip (collapseNl (normalize_character_names x))) = false :=
    pyStrip_keep_noTok (collapseNl_keep_noTok hmE (by decide)
      (normalize_character_names x).length (normalize_character_names x)
      (Nat.le_refl _) hA3)
  have hB6 : collapseNl (pyStrip (collapseNl (normalize_character_names x))) =
      pyStrip (collapseNl (normalize_character_names x)) :=
    collapseNl_id (pyStrip (collapseNl (normalize_character_names x))).length _
      (Nat.le_refl _)
      (pyStrip_keep_noTok
        (collapseNl_noLong (normalize_character_names x).length _ (Nat.le_refl _)))
  have hB7 := pyStrip_idem (collapseNl (normalize_character_names x))
  have hB4 : normalize_character_names
      (pyStrip (collapseNl (normalize_character_names x))) =
      pyStrip (collapseNl (normalize_character_names x)) := by
    show character_names.foldl (fun t n => nameGo n false 0 t)
      (pyStrip (collapseNl (normalize_character_names x))) =
      pyStrip (collapseNl (normalize_character_names x))
    refine foldNames_fix character_names _ ?_
    intro n hn
    obtain ⟨hne, hup⟩ := hokL n hn
    have f1 : nameGo n false 0 (normalize_character_names x) =
        normalize_character_names x := by
      show nameGo n false 0 (character_names.foldl (fun t n => nameGo n false 0 t) x) =
        character_names.foldl (fun t n => nameGo n false 0 t) x
      exact foldNames_all_fix character_names hokL hpair x n hn
    have f2 : nameGo n false 0 (collapseNl (normalize_character_names x)) =
        collapseNl (normalize_character_names x) :=
      nameGo_collapse_fix hne hup (normalize_character_names x).length
        (normalize_character_names x) (Nat.le_refl _) false f1
    exact nameGo_pyStrip_fix hne hup _ f2
  rw [hfirst]
  show pyStrip (collapseNl (sceneSub (stripFences (normalize_character_names
    (pyStrip (collapseNl (normalize_character_names x))))))) =
    pyStrip (collapseNl (normalize_character_names x))
  rw [hB4, stripFences_id _ hB1, sceneSub_id _ hB2 hB3, hB6, hB7]

/-- C7 (witness): the amended idempotence theorem applied at the concrete
input `"hOuSe says hi."`, which contains no backtick and no scene marker. -/
theorem C7_idem_amended_witness :
    containsTok fence3 "hOuSe says hi.".data = false ∧
    containsTok sceneStart "hOuSe says hi.".data = false ∧
    containsTok sceneEnd "hOuSe says hi.".data = false ∧
    post_decode_clean (post_decode_clean "hOuSe says hi.".data) =
      post_decode_clean "hOuSe says hi.".data :=
  ⟨by decide, by decide, by decide,
    C7_idem_amended "hOuSe says hi.".data (by decide) (by decide) (by decide)⟩

end Leet
